import Mathlib

/-!
Verification development for the Active-Alchemy wrapper
(`active_alchemy/active_alchemy.py`).

The Python source is shallowly embedded: every stateful method becomes a
pure function on an explicit state (or a small-step relation for the
thread-interleaved parts), and the external collaborators (SQLAlchemy
session and engine, the `json` module, the `inflection` library) are
modelled at the granularity the wrapper observes them.
-/

namespace ActiveAlchemy

/-! ### Engine connector (`EngineConnector`, lines 120-138)

An engine is identified by the order in which `sqlalchemy.create_engine`
produced it, so "the same engine object" is "the same id" and a fresh id
models a newly created engine.  The key is `(uri, options.get('echo'))`;
`options.get` can miss, hence `Option Bool`. -/

/-- Key on which the connector caches the engine: `(uri, echo)`. -/
abbrev EKey := String × Option Bool

/-- State of the owning `ActiveAlchemy` object that `get_engine` reads:
`self._sa_obj.uri` and `self._sa_obj.options.get('echo')`. -/
structure SAObj where
  uri : String
  echo : Option Bool
  deriving DecidableEq, Repr

/-- Mutable fields of `EngineConnector`: `_engine` and `_connected_for`.
A freshly constructed connector has both set to `None`. -/
structure EngineConnector where
  engine : Option Nat
  connected_for : Option EKey
  deriving DecidableEq, Repr

/-- Embedding of `EngineConnector.get_engine` (lines 128-138).  `nextId` is
the supply of fresh engine identities for `sqlalchemy.create_engine`; the
function returns the engine handed back, the new connector state, and the
new supply. -/
def get_engine (sa : SAObj) (c : EngineConnector) (nextId : Nat) :
    Option Nat × EngineConnector × Nat :=
  let key : EKey := (sa.uri, sa.echo)
  if c.connected_for = some key then
    (c.engine, c, nextId)
  else
    (some nextId, { engine := some nextId, connected_for := some key }, nextId + 1)

/-! ### Queries (`BaseQuery`, lines 79-99) -/

/-- The `error` argument of `get_or_error` / `first_or_error`: either an
`Exception` instance (`isinstance(error, Exception)` holds) or a
zero-argument callable. -/
inductive ErrorArg (ε α : Type) where
  | exc : ε → ErrorArg ε α
  | callable : (Unit → α) → ErrorArg ε α

/-- The query surface the two methods use: `self.get(uid)` and
`self.first()`, each possibly returning `None`. -/
structure BaseQuery (κ α : Type) where
  get : κ → Option α
  first : Option α

/-- Embedding of `BaseQuery.get_or_error` (lines 79-88). -/
def get_or_error (self : BaseQuery κ α) (uid : κ) (error : ErrorArg ε α) :
    Except ε α :=
  match self.get uid with
  | some rv => .ok rv
  | none =>
    match error with
    | .exc e => .error e
    | .callable f => .ok (f ())

/-- Embedding of `BaseQuery.first_or_error` (lines 90-99). -/
def first_or_error (self : BaseQuery κ α) (error : ErrorArg ε α) :
    Except ε α :=
  match self.first with
  | some rv => .ok rv
  | none =>
    match error with
    | .exc e => .error e
    | .callable f => .ok (f ())

/-- C1: `get_engine` is lazy and keyed on `(uri, echo)`: while the owner's
`(uri, echo)` equals the recorded key, the cached engine is returned and
nothing is created (state and fresh-id supply unchanged); once the key
differs (including the very first call, where nothing is recorded yet), a
fresh engine is created, returned, and the new key recorded. -/
theorem get_engine_lazy_keyed (sa : SAObj) (c : EngineConnector) (n : Nat) :
    (c.connected_for = some (sa.uri, sa.echo) →
      get_engine sa c n = (c.engine, c, n)) ∧
    (c.connected_for ≠ some (sa.uri, sa.echo) →
      get_engine sa c n =
        (some n,
         { engine := some n, connected_for := some (sa.uri, sa.echo) },
         n + 1)) := by
  constructor
  · intro h
    simp [get_engine, h]
  · intro h
    simp [get_engine, h]

/-- Concrete run of `get_engine_lazy_keyed`: a first call creates engine 0
and records the key, a repeat call with the same key returns engine 0
without consuming a fresh id, and a call after `echo` changed creates
engine 1. -/
theorem get_engine_lazy_keyed_witness :
    (({ engine := none, connected_for := none } : EngineConnector).connected_for ≠
        some ("sqlite://", some false) ∧
      get_engine ⟨"sqlite://", some false⟩ ⟨none, none⟩ 0 =
        (some 0, ⟨some 0, some ("sqlite://", some false)⟩, 1)) ∧
    (get_engine ⟨"sqlite://", some false⟩ ⟨some 0, some ("sqlite://", some false)⟩ 1 =
        (some 0, ⟨some 0, some ("sqlite://", some false)⟩, 1)) ∧
    (get_engine ⟨"sqlite://", some true⟩ ⟨some 0, some ("sqlite://", some false)⟩ 1 =
        (some 1, ⟨some 1, some ("sqlite://", some true)⟩, 2)) := by
  refine ⟨⟨by decide, ?_⟩, ?_, ?_⟩
  · exact (get_engine_lazy_keyed ⟨"sqlite://", some false⟩ ⟨none, none⟩ 0).2 (by decide)
  · exact (get_engine_lazy_keyed ⟨"sqlite://", some false⟩
      ⟨some 0, some ("sqlite://", some false)⟩ 1).1 (by decide)
  · exact (get_engine_lazy_keyed ⟨"sqlite://", some true⟩
      ⟨some 0, some ("sqlite://", some false)⟩ 1).2 (by decide)

/-- C10: `get_or_error` and `first_or_error` return the found entity when
the underlying `get`/`first` result is non-`None`, whatever the `error`
argument is; on `None` they raise `error` when it is an `Exception`
instance and otherwise call it as a zero-argument callable and return
its result. -/
theorem or_error_spec (κ α ε : Type) (q : BaseQuery κ α) (uid : κ)
    (rv : α) (e : ε) (f : Unit → α) :
    (q.get uid = some rv →
      ∀ error : ErrorArg ε α, get_or_error q uid error = .ok rv) ∧
    (q.get uid = none → get_or_error q uid (ErrorArg.exc (α := α) e) = .error e) ∧
    (q.get uid = none → get_or_error q uid (ErrorArg.callable (ε := ε) f) = .ok (f ())) ∧
    (q.first = some rv →
      ∀ error : ErrorArg ε α, first_or_error q error = .ok rv) ∧
    (q.first = none → first_or_error q (ErrorArg.exc (α := α) e) = .error e) ∧
    (q.first = none → first_or_error q (ErrorArg.callable (ε := ε) f) = .ok (f ())) := by
  refine ⟨?_, ?_, ?_, ?_, ?_, ?_⟩ <;> intro h <;>
    simp [get_or_error, first_or_error, h]

/-- Concrete runs of `or_error_spec`: a query whose `get` finds `7` at
key `0` and nothing elsewhere.  With `first = some 9`, both methods
return the found entity for an `Exception` error and for a callable
error alike; on a miss, the `Exception` is raised and the callable's
result is returned instead. -/
theorem or_error_spec_witness :
    (get_or_error ⟨fun u => if u = 0 then some 7 else none, some 9⟩ 0
        (ErrorArg.exc (α := Nat) "NotFound") = .ok 7) ∧
    (get_or_error ⟨fun u => if u = 0 then some 7 else none, some 9⟩ 0
        (ErrorArg.callable (ε := String) (fun _ => 42)) = .ok 7) ∧
    (get_or_error ⟨fun u => if u = 0 then some 7 else none, some 9⟩ 1
        (ErrorArg.exc (α := Nat) "NotFound") = .error "NotFound") ∧
    (get_or_error ⟨fun u => if u = 0 then some 7 else none, some 9⟩ 1
        (ErrorArg.callable (ε := String) (fun _ => 42)) = .ok 42) ∧
    (first_or_error (⟨fun u => if u = 0 then some 7 else none, some 9⟩ : BaseQuery Nat Nat)
        (ErrorArg.exc (α := Nat) "NotFound") = .ok 9) ∧
    (first_or_error (⟨fun u => if u = 0 then some 7 else none, some 9⟩ : BaseQuery Nat Nat)
        (ErrorArg.callable (ε := String) (fun _ => 42)) = .ok 9) ∧
    (first_or_error (⟨fun u => if u = 0 then some 7 else none, none⟩ : BaseQuery Nat Nat)
        (ErrorArg.exc (α := Nat) "NotFound") = .error "NotFound") ∧
    (first_or_error (⟨fun u => if u = 0 then some 7 else none, none⟩ : BaseQuery Nat Nat)
        (ErrorArg.callable (ε := String) (fun _ => 42)) = .ok 42) := by
  have hq := or_error_spec Nat Nat String
    ⟨fun u => if u = 0 then some 7 else none, some 9⟩ 0 7 "NotFound" (fun _ => 42)
  have hq1 := or_error_spec Nat Nat String
    ⟨fun u => if u = 0 then some 7 else none, some 9⟩ 1 9 "NotFound" (fun _ => 42)
  have hq2 := or_error_spec Nat Nat String
    ⟨fun u => if u = 0 then some 7 else none, none⟩ 1 9 "NotFound" (fun _ => 42)
  refine ⟨hq.1 (by simp) (ErrorArg.exc "NotFound"),
          hq.1 (by simp) (ErrorArg.callable (fun _ => 42)),
          hq1.2.1 (by simp),
          hq1.2.2.1 (by simp),
          hq1.2.2.2.1 rfl (ErrorArg.exc "NotFound"),
          hq1.2.2.2.1 rfl (ErrorArg.callable (fun _ => 42)),
          hq2.2.2.2.2.1 rfl,
          hq2.2.2.2.2.2 rfl⟩

/-! ### Session and the active-record methods (`BaseModel`, lines 190-243)

The wrapped SQLAlchemy session is an external collaborator: the wrapper
only calls `add`, `session.delete`, `commit` and `rollback` on it, and any
of the first three may raise.  We model the collaborator as a record of
operations, each returning the session state it left behind together with
the exception it raised, if any (the state matters because `rollback` is
applied to whatever state the failing operation left). -/

/-- Session state used by the concrete collaborator model: objects added
but not yet committed, objects marked for deletion, and durable rows. -/
structure Session (α : Type) where
  pending : List α
  deleted : List α
  committed : List α
  deriving DecidableEq, Repr

/-- The operations the wrapper invokes on the external session, plus the
engine-side effects it never inspects.  Each fallible operation returns
the state it left and `some e` when it raised `e`. -/
structure SessionOps (α ε : Type) where
  add : Session α → α → Session α × Option ε
  sdelete : Session α → α → Session α × Option ε
  commit : Session α → Session α × Option ε
  rollback : Session α → Session α

/-- Embedding of `BaseModel.save` (lines 219-229): `self.db.add(self)`,
`self.db.commit()`, `return self`; on any exception `self.db.rollback()`
and re-raise.  An `error` result carries the re-raised exception and the
rolled-back session state. -/
def save (ops : SessionOps α ε) (s : Session α) (self : α) :
    Except (ε × Session α) (α × Session α) :=
  let r1 := ops.add s self
  match r1.2 with
  | some e => .error (e, ops.rollback r1.1)
  | none =>
    let r2 := ops.commit r1.1
    match r2.2 with
    | some e => .error (e, ops.rollback r2.1)
    | none => .ok (self, r2.1)

/-- Embedding of `BaseModel.delete` (lines 231-243).  The parameters are
named `delete=True, hard_delete=False` in the source; the body is
`self.db.session.delete(self)` then `return self.db.commit()`, with the
same rollback-and-re-raise handler as `save`. -/
def bm_delete (ops : SessionOps α ε) (del hard_delete : Bool)
    (s : Session α) (self : α) : Except (ε × Session α) (Session α) :=
  let r1 := ops.sdelete s self
  match r1.2 with
  | some e => .error (e, ops.rollback r1.1)
  | none =>
    let r2 := ops.commit r1.1
    match r2.2 with
    | some e => .error (e, ops.rollback r2.1)
    | none => .ok r2.1

/-! Attribute maps: a mapped instance is observed through `getattr` and
mutated through `setattr`, so an instance is a total map from attribute
names to values. -/

/-- Python values that can sit in a model column, as far as `to_json`
distinguishes them: a `datetime.datetime` or `arrow.Arrow` value carries
the string its `isoformat()` returns. -/
inductive PyVal where
  | pstr : String → PyVal
  | pint : Int → PyVal
  | pbool : Bool → PyVal
  | pnone : PyVal
  | pdatetime : String → PyVal
  | parrow : String → PyVal
  deriving DecidableEq, Repr

/-- Attribute state of a model instance: `getattr` as a total map. -/
abbrev Attrs := String → PyVal

/-- The loop `for k, v in kwargs.items(): setattr(self, k, v)` of
`BaseModel.update` (lines 203-204), and equally the attribute-setting done
by the declarative constructor `cls(**kwargs)`. -/
def setattrs (a : Attrs) (kwargs : List (String × PyVal)) : Attrs :=
  kwargs.foldl (fun acc kv => fun n => if n = kv.1 then kv.2 else acc n) a

/-- Embedding of `BaseModel.update` (lines 199-206): set each kwarg, then
`self.save()`, then `return self`; `save` already returns the (mutated)
`self`, so the composition is `save` applied to the updated instance. -/
def update (ops : SessionOps Attrs ε) (self : Attrs)
    (kwargs : List (String × PyVal)) (s : Session Attrs) :
    Except (ε × Session Attrs) (Attrs × Session Attrs) :=
  save ops s (setattrs self kwargs)

/-- The declarative constructor `cls(**kwargs)`: each keyword argument is
set on a fresh instance whose other attributes keep the class defaults. -/
def mkInstance (defaults : Attrs) (kwargs : List (String × PyVal)) : Attrs :=
  setattrs defaults kwargs

/-- Embedding of `BaseModel.create` (lines 190-197):
`record = cls(**kwargs).save(); return record`. -/
def create (ops : SessionOps Attrs ε) (defaults : Attrs)
    (kwargs : List (String × PyVal)) (s : Session Attrs) :
    Except (ε × Session Attrs) (Attrs × Session Attrs) :=
  save ops s (mkInstance defaults kwargs)

/-- Concrete, never-failing session collaborator: `add` appends to the
pending list, `session.delete` expunges the object and marks it,
`commit` applies deletions and moves pending objects into the committed
rows, `rollback` discards all uncommitted work. -/
def listOps (α : Type) [DecidableEq α] : SessionOps α String where
  add s x := ({ s with pending := s.pending ++ [x] }, none)
  sdelete s x :=
    ({ s with pending := s.pending.filter (fun z => z ≠ x),
              deleted := s.deleted ++ [x] }, none)
  commit s :=
    ({ pending := [], deleted := [],
       committed := s.committed.filter (fun z => z ∉ s.deleted) ++ s.pending },
     none)
  rollback s := { s with pending := [], deleted := [] }

/-- Session collaborator whose `commit` always raises, for exercising the
error path. -/
def failCommitOps (α : Type) [DecidableEq α] : SessionOps α String :=
  { listOps α with commit := fun s => (s, some "IntegrityError") }

/-- Session collaborator whose `add` and `session.delete` always raise. -/
def failAddOps (α : Type) [DecidableEq α] : SessionOps α String :=
  { listOps α with
      add := fun s _ => (s, some "InvalidRequestError"),
      sdelete := fun s _ => (s, some "InvalidRequestError") }

/-- C2: `save` adds then commits and returns the instance on success; if
`add` or `commit` raises, the session is rolled back and the very same
exception is re-raised.  The same discipline holds for `delete`. -/
theorem save_delete_discipline (ops : SessionOps α ε) (s : Session α) (x : α) :
    (∀ s1 s2, ops.add s x = (s1, none) → ops.commit s1 = (s2, none) →
        save ops s x = .ok (x, s2)) ∧
    (∀ s1 e, ops.add s x = (s1, some e) →
        save ops s x = .error (e, ops.rollback s1)) ∧
    (∀ s1 s2 e, ops.add s x = (s1, none) → ops.commit s1 = (s2, some e) →
        save ops s x = .error (e, ops.rollback s2)) ∧
    (∀ del hd : Bool,
      (∀ s1 s2, ops.sdelete s x = (s1, none) → ops.commit s1 = (s2, none) →
          bm_delete ops del hd s x = .ok s2) ∧
      (∀ s1 e, ops.sdelete s x = (s1, some e) →
          bm_delete ops del hd s x = .error (e, ops.rollback s1)) ∧
      (∀ s1 s2 e, ops.sdelete s x = (s1, none) → ops.commit s1 = (s2, some e) →
          bm_delete ops del hd s x = .error (e, ops.rollback s2))) := by
  refine ⟨?_, ?_, ?_, fun del hd => ⟨?_, ?_, ?_⟩⟩
  · intro s1 s2 h1 h2
    simp [save, h1, h2]
  · intro s1 e h1
    simp [save, h1]
  · intro s1 s2 e h1 h2
    simp [save, h1, h2]
  · intro s1 s2 h1 h2
    simp [bm_delete, h1, h2]
  · intro s1 e h1
    simp [bm_delete, h1]
  · intro s1 s2 e h1 h2
    simp [bm_delete, h1, h2]

/-- Concrete runs of `save_delete_discipline` on the session collaborators:
a successful save commits the object and returns it; a failing commit
rolls back and re-raises; a failing add rolls back and re-raises; and the
same for delete. -/
theorem save_delete_discipline_witness :
    (save (listOps Nat) ⟨[], [], []⟩ 5 = .ok (5, ⟨[], [], [5]⟩)) ∧
    (save (failCommitOps Nat) ⟨[], [], []⟩ 5 =
      .error ("IntegrityError", ⟨[], [], []⟩)) ∧
    (save (failAddOps Nat) ⟨[], [], []⟩ 5 =
      .error ("InvalidRequestError", ⟨[], [], []⟩)) ∧
    (bm_delete (listOps Nat) true false ⟨[], [], [5]⟩ 5 = .ok ⟨[], [], []⟩) ∧
    (bm_delete (failCommitOps Nat) true false ⟨[], [], [5]⟩ 5 =
      .error ("IntegrityError", ⟨[], [], [5]⟩)) := by
  refine ⟨?_, ?_, ?_, ?_, ?_⟩
  · exact (save_delete_discipline (listOps Nat) ⟨[], [], []⟩ 5).1
      ⟨[5], [], []⟩ ⟨[], [], [5]⟩ rfl rfl
  · exact (save_delete_discipline (failCommitOps Nat) ⟨[], [], []⟩ 5).2.2.1
      ⟨[5], [], []⟩ ⟨[5], [], []⟩ "IntegrityError" rfl rfl
  · exact (save_delete_discipline (failAddOps Nat) ⟨[], [], []⟩ 5).2.1
      ⟨[], [], []⟩ "InvalidRequestError" rfl
  · exact ((save_delete_discipline (listOps Nat) ⟨[], [], [5]⟩ 5).2.2.2 true false).1
      ⟨[], [5], [5]⟩ ⟨[], [], []⟩ rfl (by simp [listOps])
  · exact ((save_delete_discipline (failCommitOps Nat) ⟨[], [], [5]⟩ 5).2.2.2 true false).2.2
      ⟨[], [5], [5]⟩ ⟨[], [5], [5]⟩ "IntegrityError" rfl rfl

/-- Concrete session collaborator usable at any element type (no
decidable equality needed): deletions are recorded but only additions
reach the committed rows, which is all the `update`/`create` claims
observe. -/
def pureOps (α : Type) : SessionOps α String where
  add s x := ({ s with pending := s.pending ++ [x] }, none)
  sdelete s x := ({ s with deleted := s.deleted ++ [x] }, none)
  commit s :=
    ({ pending := [], deleted := [], committed := s.committed ++ s.pending }, none)
  rollback s := { s with pending := [], deleted := [] }

theorem setattrs_cons (a : Attrs) (k0 : String) (v0 : PyVal)
    (rest : List (String × PyVal)) :
    setattrs a ((k0, v0) :: rest) =
      setattrs (fun n => if n = k0 then v0 else a n) rest := rfl

theorem setattrs_not_mem (kwargs : List (String × PyVal)) :
    ∀ (a : Attrs) (k : String), k ∉ kwargs.map Prod.fst →
      setattrs a kwargs k = a k := by
  induction kwargs with
  | nil => intro a k _; rfl
  | cons kv rest ih =>
    intro a k hk
    rcases kv with ⟨k0, v0⟩
    simp only [List.map_cons, List.mem_cons] at hk
    push_neg at hk
    rw [setattrs_cons, ih _ k hk.2]
    simp [hk.1]

theorem setattrs_mem (kwargs : List (String × PyVal))
    (hk : (kwargs.map Prod.fst).Nodup) :
    ∀ (a : Attrs) (k : String) (v : PyVal), (k, v) ∈ kwargs →
      setattrs a kwargs k = v := by
  induction kwargs with
  | nil => intro a k v hv; simp at hv
  | cons kv rest ih =>
    intro a k v hv
    rcases kv with ⟨k0, v0⟩
    simp only [List.map_cons, List.nodup_cons] at hk
    rcases List.mem_cons.mp hv with heq | hmem
    · obtain ⟨hk1, hv1⟩ := Prod.mk.injEq .. ▸ heq
      subst hk1; subst hv1
      rw [setattrs_cons, setattrs_not_mem rest _ k hk.1]
      simp
    · exact setattrs_cons .. ▸ ih hk.2 _ k v hmem

theorem save_ok_fst (ops : SessionOps α ε) (s : Session α) (x y : α)
    (s2 : Session α) (h : save ops s x = .ok (y, s2)) : y = x := by
  unfold save at h
  rcases h1 : ops.add s x with ⟨s1, e1⟩
  simp only [h1] at h
  cases e1 with
  | some e => simp at h
  | none =>
    rcases h2 : ops.commit s1 with ⟨t2, e2⟩
    simp only [h2] at h
    cases e2 with
    | some e => simp at h
    | none =>
      simp only [Except.ok.injEq, Prod.mk.injEq] at h
      exact h.1.symm

/-- C4: `update(**kwargs)` sets exactly the attributes named in `kwargs`
to the given values, leaves every other attribute unchanged, then saves
the instance, and (on success) returns that same updated instance. -/
theorem update_frame (ops : SessionOps Attrs ε) (self : Attrs)
    (kwargs : List (String × PyVal)) (s : Session Attrs)
    (hk : (kwargs.map Prod.fst).Nodup) :
    (∀ k v, (k, v) ∈ kwargs → setattrs self kwargs k = v) ∧
    (∀ k, k ∉ kwargs.map Prod.fst → setattrs self kwargs k = self k) ∧
    update ops self kwargs s = save ops s (setattrs self kwargs) ∧
    (∀ inst s2, update ops self kwargs s = .ok (inst, s2) →
        inst = setattrs self kwargs) := by
  refine ⟨fun k v hv => setattrs_mem kwargs hk self k v hv,
          fun k hk2 => setattrs_not_mem kwargs self k hk2, rfl, ?_⟩
  intro inst s2 h
  exact save_ok_fst ops s _ inst s2 h

/-- Concrete run of `update_frame`: updating `name` and `age` on an
all-`None` instance sets those two attributes, leaves `id` untouched,
goes through `save`, and the saved/returned instance is the updated one. -/
theorem update_frame_witness :
    (setattrs (fun _ => PyVal.pnone)
        [("name", PyVal.pstr "a"), ("age", PyVal.pint 3)] "name" = PyVal.pstr "a") ∧
    (setattrs (fun _ => PyVal.pnone)
        [("name", PyVal.pstr "a"), ("age", PyVal.pint 3)] "age" = PyVal.pint 3) ∧
    (setattrs (fun _ => PyVal.pnone)
        [("name", PyVal.pstr "a"), ("age", PyVal.pint 3)] "id" = PyVal.pnone) ∧
    (update (pureOps Attrs) (fun _ => PyVal.pnone)
        [("name", PyVal.pstr "a"), ("age", PyVal.pint 3)] ⟨[], [], []⟩ =
      save (pureOps Attrs) ⟨[], [], []⟩
        (setattrs (fun _ => PyVal.pnone)
          [("name", PyVal.pstr "a"), ("age", PyVal.pint 3)])) := by
  have h := update_frame (pureOps Attrs) (fun _ => PyVal.pnone)
    [("name", PyVal.pstr "a"), ("age", PyVal.pint 3)] ⟨[], [], []⟩ (by simp)
  exact ⟨h.1 "name" (PyVal.pstr "a") (by simp),
         h.1 "age" (PyVal.pint 3) (by simp),
         h.2.1 "id" (by simp),
         h.2.2.1⟩

/-- C5: `create(**kwargs)` builds a new instance whose attributes come
from `kwargs` (class defaults elsewhere), saves it by add-then-commit,
and returns the new record. -/
theorem create_spec (ops : SessionOps Attrs ε) (defaults : Attrs)
    (kwargs : List (String × PyVal)) (s : Session Attrs)
    (hk : (kwargs.map Prod.fst).Nodup) :
    (∀ k v, (k, v) ∈ kwargs → mkInstance defaults kwargs k = v) ∧
    (∀ k, k ∉ kwargs.map Prod.fst → mkInstance defaults kwargs k = defaults k) ∧
    create ops defaults kwargs s = save ops s (mkInstance defaults kwargs) ∧
    (∀ s1 s2, ops.add s (mkInstance defaults kwargs) = (s1, none) →
        ops.commit s1 = (s2, none) →
        create ops defaults kwargs s = .ok (mkInstance defaults kwargs, s2)) := by
  refine ⟨fun k v hv => setattrs_mem kwargs hk defaults k v hv,
          fun k hk2 => setattrs_not_mem kwargs defaults k hk2, rfl, ?_⟩
  intro s1 s2 h1 h2
  simp [create, save, h1, h2]

/-- Concrete run of `create_spec`: creating with `name := "a"` yields a
record carrying `name = "a"`, default `id = None`, and the record is
added and committed. -/
theorem create_spec_witness :
    (mkInstance (fun _ => PyVal.pnone) [("name", PyVal.pstr "a")] "name" =
        PyVal.pstr "a") ∧
    (mkInstance (fun _ => PyVal.pnone) [("name", PyVal.pstr "a")] "id" =
        PyVal.pnone) ∧
    (create (pureOps Attrs) (fun _ => PyVal.pnone) [("name", PyVal.pstr "a")]
        ⟨[], [], []⟩ =
      .ok (mkInstance (fun _ => PyVal.pnone) [("name", PyVal.pstr "a")],
           ⟨[], [],
            [mkInstance (fun _ => PyVal.pnone) [("name", PyVal.pstr "a")]]⟩)) := by
  have h := create_spec (pureOps Attrs) (fun _ => PyVal.pnone)
    [("name", PyVal.pstr "a")] ⟨[], [], []⟩ (by simp)
  refine ⟨h.1 "name" (PyVal.pstr "a") (by simp), h.2.1 "id" (by simp), ?_⟩
  exact h.2.2.2 ⟨[mkInstance (fun _ => PyVal.pnone) [("name", PyVal.pstr "a")]], [], []⟩
    ⟨[], [], [mkInstance (fun _ => PyVal.pnone) [("name", PyVal.pstr "a")]]⟩ rfl rfl

/-- C9: the `delete` and `hard_delete` parameters of `BaseModel.delete`
have no effect on the outcome, and the method always hard-deletes: on the
concrete collaborator the record is gone from pending, deleted marks and
committed rows after the commit, for every combination of the flags. -/
theorem delete_flags_no_effect (ops : SessionOps α ε) (del hd : Bool)
    (s : Session α) (x : α) :
    bm_delete ops del hd s x = bm_delete ops true false s x ∧
    ∀ (t : Session Nat) (y : Nat), ∃ s2,
      bm_delete (listOps Nat) del hd t y = .ok s2 ∧
      y ∉ s2.pending ∧ y ∉ s2.deleted ∧ y ∉ s2.committed := by
  refine ⟨rfl, ?_⟩
  intro t y
  refine ⟨_, rfl, ?_, ?_, ?_⟩
  · simp [listOps]
  · simp [listOps]
  · simp [listOps, List.mem_filter, List.mem_append]

/-! ### Dictionary and JSON conversion (`to_dict` / `to_json`, lines 163-180) -/

/-- Python dict assignment `d[k] = v` with insertion-order semantics:
an existing key keeps its position and gets the new value, a fresh key is
appended. -/
def dictInsert (d : List (String × PyVal)) (k : String) (v : PyVal) :
    List (String × PyVal) :=
  if d.any (fun p => p.1 = k) then
    d.map (fun p => if p.1 = k then (k, v) else p)
  else d ++ [(k, v)]

/-- A dict comprehension `{k: v for (k, v) in ps}`. -/
def dictOfPairs (ps : List (String × PyVal)) : List (String × PyVal) :=
  ps.foldl (fun d p => dictInsert d p.1 p.2) []

/-- A mapped model instance as `to_dict`/`to_json` observe it: the column
names of `self.__table__.columns` and `getattr` on the instance. -/
structure ModelInstance where
  columns : List String
  attrs : Attrs

/-- Embedding of `BaseModel.to_dict` (lines 163-168):
`{c.name: getattr(self, c.name) for c in self.__table__.columns}`. -/
def to_dict (self : ModelInstance) : List (String × PyVal) :=
  dictOfPairs (self.columns.map (fun c => (c, self.attrs c)))

theorem dictInsert_fresh (d : List (String × PyVal)) (k : String) (v : PyVal)
    (h : ∀ p ∈ d, p.1 ≠ k) : dictInsert d k v = d ++ [(k, v)] := by
  have hany : d.any (fun p => p.1 = k) = false := by
    rw [List.any_eq_false]
    intro p hp
    simpa using h p hp
  simp [dictInsert, hany]

theorem dictOfPairs_aux (ps : List (String × PyVal)) :
    ∀ acc : List (String × PyVal), ((acc ++ ps).map Prod.fst).Nodup →
      ps.foldl (fun d p => dictInsert d p.1 p.2) acc = acc ++ ps := by
  induction ps with
  | nil => intro acc _; simp
  | cons p rest ih =>
    intro acc h
    rcases p with ⟨k, v⟩
    have hk : ∀ q ∈ acc, q.1 ≠ k := by
      intro q hq
      rw [List.map_append, List.nodup_append] at h
      have hdisj := h.2.2
      intro hqk
      exact hdisj (List.mem_map_of_mem Prod.fst hq) (by simp [hqk])
    rw [List.foldl_cons, dictInsert_fresh acc k v hk]
    have h2 : (((acc ++ [(k, v)]) ++ rest).map Prod.fst).Nodup := by
      simpa [List.append_assoc] using h
    simpa [List.append_assoc] using ih (acc ++ [(k, v)]) h2

theorem dictOfPairs_nodup (ps : List (String × PyVal))
    (h : (ps.map Prod.fst).Nodup) : dictOfPairs ps = ps := by
  simpa using dictOfPairs_aux ps [] (by simpa using h)

theorem map_fst_pairs (cols : List String) (a : Attrs) :
    (cols.map (fun c => (c, a c))).map Prod.fst = cols := by
  induction cols with
  | nil => rfl
  | cons d rest ih => simp [ih]

theorem map_fst_transform (t : PyVal → PyVal) (l : List (String × PyVal)) :
    (l.map (fun kv => (kv.1, t kv.2))).map Prod.fst = l.map Prod.fst := by
  induction l with
  | nil => rfl
  | cons kv rest ih => simp [ih]

theorem lookup_map_attrs (cols : List String) (a : Attrs) (c : String)
    (hc : c ∈ cols) :
    (cols.map (fun c2 => (c2, a c2))).lookup c = some (a c) := by
  induction cols with
  | nil => simp at hc
  | cons d rest ih =>
    by_cases hdc : c = d
    · subst hdc; simp [List.lookup]
    · have hmem : c ∈ rest := by
        rcases List.mem_cons.mp hc with h | h
        · exact absurd h hdc
        · exact h
      have hbeq : (c == d) = false := by simpa using hdc
      simpa [List.lookup, hbeq] using ih hmem

/-- C6: under unique column names, `to_dict` is exactly the column-name to
attribute-value mapping: its keys are the column names in order and the
value at each column name is `getattr` of that name. -/
theorem to_dict_spec (self : ModelInstance) (h : self.columns.Nodup) :
    to_dict self = self.columns.map (fun c => (c, self.attrs c)) ∧
    (to_dict self).map Prod.fst = self.columns ∧
    ∀ c ∈ self.columns, (to_dict self).lookup c = some (self.attrs c) := by
  have h1 : to_dict self = self.columns.map (fun c => (c, self.attrs c)) := by
    apply dictOfPairs_nodup
    rw [map_fst_pairs]
    exact h
  refine ⟨h1, by rw [h1, map_fst_pairs], ?_⟩
  intro c hc
  rw [h1]
  exact lookup_map_attrs _ _ c hc

/-- Concrete run of `to_dict_spec` on a two-column instance. -/
theorem to_dict_spec_witness :
    to_dict ⟨["id", "name"],
        fun n => if n = "name" then PyVal.pstr "x" else PyVal.pint 1⟩ =
      [("id", PyVal.pint 1), ("name", PyVal.pstr "x")] ∧
    (to_dict ⟨["id", "name"],
        fun n => if n = "name" then PyVal.pstr "x" else PyVal.pint 1⟩).lookup "name" =
      some (PyVal.pstr "x") := by
  have h := to_dict_spec
    ⟨["id", "name"], fun n => if n = "name" then PyVal.pstr "x" else PyVal.pint 1⟩
    (by simp)
  refine ⟨?_, h.2.2 "name" (by simp)⟩
  rw [h.1]
  simp

/-- The `isinstance(v, (datetime.datetime, sa_utils.ArrowType, arrow.Arrow))`
test of `to_json` (line 177). -/
def is_datetime_like : PyVal → Bool
  | .pdatetime _ => true
  | .parrow _ => true
  | _ => false

/-- The `v.isoformat()` call of `to_json` (line 178); on other values it
is never invoked, so it acts as the identity there. -/
def py_isoformat : PyVal → PyVal
  | .pdatetime s => .pstr s
  | .parrow s => .pstr s
  | v => v

/-- The `data` dict built by the loop of `BaseModel.to_json`
(lines 175-179). -/
def to_json_data (self : ModelInstance) : List (String × PyVal) :=
  (to_dict self).foldl
    (fun data kv =>
      dictInsert data kv.1
        (if is_datetime_like kv.2 then py_isoformat kv.2 else kv.2)) []

/-- JSON values as the external `json` module's AST; `json.dumps` renders
this AST to text and `json.loads` parses the text back to it, an inverse
pair guaranteed by the library. -/
inductive JVal where
  | jstr : String → JVal
  | jnum : Int → JVal
  | jbool : Bool → JVal
  | jnull : JVal
  deriving DecidableEq, Repr

/-- How `json.dumps` encodes a Python primitive; a `datetime`/`Arrow`
value is not JSON-serializable (dumps raises `TypeError`), hence `none`. -/
def jval_of : PyVal → Option JVal
  | .pstr s => some (.jstr s)
  | .pint n => some (.jnum n)
  | .pbool b => some (.jbool b)
  | .pnone => some .jnull
  | .pdatetime _ => none
  | .parrow _ => none

/-- `json.dumps` on an object with the given items, at AST granularity:
it succeeds exactly when every value is serializable. -/
def json_dumps_obj : List (String × PyVal) → Option (List (String × JVal))
  | [] => some []
  | kv :: rest =>
    match jval_of kv.2, json_dumps_obj rest with
    | some j, some e => some ((kv.1, j) :: e)
    | _, _ => none

/-- Embedding of `BaseModel.to_json` (lines 170-180):
`json.dumps(data)` for the transformed `data` dict. -/
def to_json (self : ModelInstance) : Option (List (String × JVal)) :=
  json_dumps_obj (to_json_data self)

/-- How `json.loads` decodes a JSON primitive back to Python. -/
def pyval_of_jval : JVal → PyVal
  | .jstr s => .pstr s
  | .jnum n => .pint n
  | .jbool b => .pbool b
  | .jnull => .pnone

/-- `json.loads` on a serialized object, at AST granularity. -/
def json_loads_obj (d : List (String × JVal)) : List (String × PyVal) :=
  d.map (fun kv => (kv.1, pyval_of_jval kv.2))

theorem fold_transform (t : PyVal → PyVal) (l : List (String × PyVal))
    (h : (l.map Prod.fst).Nodup) :
    l.foldl (fun d kv => dictInsert d kv.1 (t kv.2)) [] =
      l.map (fun kv => (kv.1, t kv.2)) := by
  have h1 : (l.map (fun kv => (kv.1, t kv.2))).foldl
      (fun d p => dictInsert d p.1 p.2) [] =
      l.foldl (fun d kv => dictInsert d kv.1 (t kv.2)) [] := List.foldl_map ..
  rw [← h1]
  apply dictOfPairs_nodup
  rw [map_fst_transform]
  exact h

theorem transformed_serializable (v : PyVal) :
    ∃ j, jval_of (if is_datetime_like v then py_isoformat v else v) = some j ∧
      pyval_of_jval j = (if is_datetime_like v then py_isoformat v else v) := by
  cases v <;> exact ⟨_, rfl, rfl⟩

theorem dumps_loads (d : List (String × PyVal))
    (h : ∀ kv ∈ d, ∃ j, jval_of kv.2 = some j ∧ pyval_of_jval j = kv.2) :
    ∃ e, json_dumps_obj d = some e ∧ json_loads_obj e = d := by
  induction d with
  | nil => exact ⟨[], rfl, rfl⟩
  | cons kv rest ih =>
    obtain ⟨j, hj, hjb⟩ := h kv (by simp)
    obtain ⟨e, he, heb⟩ := ih (fun kv2 hkv2 => h kv2 (by simp [hkv2]))
    refine ⟨(kv.1, j) :: e, ?_, ?_⟩
    · simp [json_dumps_obj, hj, he]
    · simp only [json_loads_obj, List.map_cons, hjb]
      simpa [json_loads_obj] using heb

/-- C7: under unique column names, the `data` dict serialized by `to_json`
is the `to_dict` mapping with every `datetime`/`Arrow` value replaced by
its `isoformat()` string and every other value kept as is; serialization
succeeds and parsing the produced JSON gives back exactly that
transformed mapping. -/
theorem to_json_spec (self : ModelInstance) (h : self.columns.Nodup) :
    to_json_data self =
      (to_dict self).map (fun kv =>
        (kv.1, if is_datetime_like kv.2 then py_isoformat kv.2 else kv.2)) ∧
    ∃ j, to_json self = some j ∧ json_loads_obj j = to_json_data self := by
  have hkeys : ((to_dict self).map Prod.fst).Nodup := by
    rw [(to_dict_spec self h).2.1]; exact h
  have hmain : to_json_data self =
      (to_dict self).map (fun kv =>
        (kv.1, if is_datetime_like kv.2 then py_isoformat kv.2 else kv.2)) :=
    fold_transform (fun v => if is_datetime_like v then py_isoformat v else v)
      (to_dict self) hkeys
  refine ⟨hmain, ?_⟩
  apply dumps_loads
  intro kv hkv
  rw [hmain] at hkv
  obtain ⟨kv0, _, heq⟩ := List.mem_map.mp hkv
  subst heq
  exact transformed_serializable kv0.2

/-- Concrete run of `to_json_spec`: an instance with an integer `id` and a
datetime `created_at` serializes with the datetime replaced by its
ISO string, and parsing returns exactly that mapping. -/
theorem to_json_spec_witness :
    to_json ⟨["id", "created_at"],
        fun n => if n = "created_at" then PyVal.pdatetime "2020-01-01T00:00:00"
                 else PyVal.pint 1⟩ =
      some [("id", JVal.jnum 1), ("created_at", JVal.jstr "2020-01-01T00:00:00")] ∧
    json_loads_obj
        [("id", JVal.jnum 1), ("created_at", JVal.jstr "2020-01-01T00:00:00")] =
      to_json_data ⟨["id", "created_at"],
        fun n => if n = "created_at" then PyVal.pdatetime "2020-01-01T00:00:00"
                 else PyVal.pint 1⟩ := by
  have h := to_json_spec
    ⟨["id", "created_at"],
      fun n => if n = "created_at" then PyVal.pdatetime "2020-01-01T00:00:00"
               else PyVal.pint 1⟩ (by simp)
  obtain ⟨j, hj, hback⟩ := h.2
  have hjval : j =
      [("id", JVal.jnum 1), ("created_at", JVal.jstr "2020-01-01T00:00:00")] := by
    have : some j = some
        [("id", JVal.jnum 1), ("created_at", JVal.jstr "2020-01-01T00:00:00")] := by
      rw [← hj]; rfl
    exact Option.some.injEq .. ▸ this
  subst hjval
  exact ⟨hj, hback⟩

/-! ### Table-name inference (`ModelTableNameDescriptor`, lines 108-117)

`inflection.underscore` is the external library call the descriptor makes:
`re.sub(r'([A-Z]+)([A-Z][a-z])', r'\1_\2', w)`, then
`re.sub(r'([a-z\d])([A-Z])', r'\1_\2', w)`, then `-` to `_`, then lower.
The two substitutions are implemented below exactly as the regex engine
scans: left to right, non-overlapping, resuming after each match. -/

/-- Length of the leading uppercase run of a character list. -/
def upperRunLen : List Char → Nat
  | [] => 0
  | c :: rest => if c.isUpper then upperRunLen rest + 1 else 0

/-- One pass of `re.sub(r'([A-Z]+)([A-Z][a-z])', r'\1_\2', w)`: at a
position starting an uppercase run of length `r ≥ 2` whose next character
is lowercase, the engine matches the first `r-1` capitals as group 1 and
the final capital plus the lowercase as group 2, inserts the underscore,
and resumes after the match; otherwise it advances one character.  The
fuel argument (instantiated with the list length, which bounds the number
of scan steps) makes the recursion structural. -/
def sub1Aux : Nat → List Char → List Char
  | 0, l => l
  | fuel + 1, l =>
    match l with
    | [] => []
    | c :: rest =>
      let r := upperRunLen (c :: rest)
      if 2 ≤ r ∧ ((c :: rest).get? r).any Char.isLower then
        (c :: rest).take (r - 1) ++ '_' ::
          (((c :: rest).drop (r - 1)).take 2 ++ sub1Aux fuel ((c :: rest).drop (r + 1)))
      else
        c :: sub1Aux fuel rest

/-- First substitution of `inflection.underscore`. -/
def sub1 (l : List Char) : List Char := sub1Aux l.length l

/-- Second substitution, `re.sub(r'([a-z\d])([A-Z])', r'\1_\2', w)`: an
underscore goes between a lowercase-or-digit character and a following
capital; the capital can itself start the next match. -/
def sub2 : List Char → List Char
  | [] => []
  | [c] => [c]
  | a :: b :: rest =>
    if (a.isLower || a.isDigit) && b.isUpper then
      a :: '_' :: sub2 (b :: rest)
    else
      a :: sub2 (b :: rest)

/-- The external `inflection.underscore(word)` used at line 115. -/
def underscore (w : String) : String :=
  String.mk (((sub2 (sub1 w.toList)).map
    (fun ch => if ch = '-' then '_' else ch)).map Char.toLower)

/-- A model class as attribute lookup sees it: `type.__name__` and the
class's own `type.__dict__` entry for `__tablename__` (absent on a class
that does not define one; the computed name is cached into it via
`setattr`). -/
structure ModelClass where
  name : String
  tablename : Option String
  deriving DecidableEq, Repr

/-- Embedding of the body of `ModelTableNameDescriptor.__get__`
(lines 112-117): `type.__dict__.get('__tablename__')`, the falsy test
`if not tablename` (a missing entry reads as falsy, like an empty
string), compute-and-`setattr` when falsy.  Returns the tablename and
the class as left after the call. -/
def descriptor_get (cls : ModelClass) : String × ModelClass :=
  let tn := cls.tablename.getD ""
  if tn = "" then
    let tn2 := underscore cls.name
    (tn2, { cls with tablename := some tn2 })
  else
    (tn, cls)

/-- Reading `cls.__tablename__`: Python class-attribute lookup walks the
MRO and the class's own `__dict__` entry — whatever its value — shadows
the `ModelTableNameDescriptor` inherited from `BaseModel` (line 146), so
the descriptor's `__get__` only runs for a class with no own entry.
This same rule makes the `setattr`-cached name satisfy later reads
directly. -/
def tablename_read (cls : ModelClass) : String × ModelClass :=
  match cls.tablename with
  | some tn => (tn, cls)
  | none => descriptor_get cls

/-- C3: a class with no own `__tablename__` reads as the underscored
(snake_case) form of the class name, and that name is stored on the
class so every subsequent read returns the same name with no further
change; a class that defines its own `__tablename__` keeps that value,
because its own entry shadows the descriptor. -/
theorem tablename_inference (cls : ModelClass) :
    (cls.tablename = none →
      tablename_read cls =
        (underscore cls.name, { cls with tablename := some (underscore cls.name) }) ∧
      tablename_read (tablename_read cls).2 =
        ((tablename_read cls).1, (tablename_read cls).2)) ∧
    (∀ s, cls.tablename = some s → tablename_read cls = (s, cls)) := by
  constructor
  · intro h
    have h1 : tablename_read cls =
        (underscore cls.name, { cls with tablename := some (underscore cls.name) }) := by
      simp [tablename_read, descriptor_get, h]
    refine ⟨h1, ?_⟩
    rw [h1]
    simp [tablename_read]
  · intro s h
    simp [tablename_read, h]

/-- Concrete runs of `tablename_inference`: `FooBar` with no own
tablename reads as `foo_bar`, the name is cached and a second read is
stable; a class with `__tablename__ = "custom"` keeps it; and even a
falsy own entry (`__tablename__ = ""`) is kept unchanged, since it
shadows the descriptor. -/
theorem tablename_inference_witness :
    tablename_read { name := "FooBar", tablename := none } =
      ("foo_bar", { name := "FooBar", tablename := some "foo_bar" }) ∧
    tablename_read { name := "FooBar", tablename := some "foo_bar" } =
      ("foo_bar", { name := "FooBar", tablename := some "foo_bar" }) ∧
    tablename_read { name := "Events", tablename := some "custom" } =
      ("custom", { name := "Events", tablename := some "custom" }) ∧
    tablename_read { name := "FooBar", tablename := some "" } =
      ("", { name := "FooBar", tablename := some "" }) := by
  have h1 := (tablename_inference { name := "FooBar", tablename := none }).1 rfl
  have h2 := (tablename_inference { name := "Events", tablename := some "custom" }).2
    "custom" rfl
  have h3 := (tablename_inference { name := "FooBar", tablename := some "" }).2
    "" rfl
  refine ⟨?_, ?_, h2, h3⟩
  · rw [h1.1]; rfl
  · have h4 := h1.2
    rw [h1.1] at h4
    simpa using h4

/-! ### Thread interleavings of `engine` and `get_engine` (C8)

The `ActiveAlchemy.engine` property (lines 440-448) and
`EngineConnector.get_engine` (lines 128-138) are the only code touching
`self.connector`, the connector's fields, and the two locks.  We model an
arbitrary finite set of threads, each either running the `engine`
property (which installs the connector if absent and then calls
`get_engine` while still holding `_engine_lock`) or calling
`db.connector.get_engine()` directly (taking only the connector's own
`_lock`).  Each program point that reads or writes shared state is one
step; the `(uri, echo)` key is fixed because no thread mutates the
`ActiveAlchemy` object.  Engine creation events and connector
installations are counted in the state so the safety property is a
statement about every reachable state. -/

/-- Program points of the two procedures.  For the `engine` property:
`acqOuter` (enter `with self._engine_lock`), `readField`
(`connector = self.connector`), `alloc` (`EngineConnector(self)`),
`store` (`self.connector = connector`), then the shared `get_engine`
body: `callGet` (enter `with self._lock`), `cmpFor` (compare `(uri,
echo)` with `_connected_for`), `createEng` (`create_engine`), `setFor`
(`self._connected_for = (uri, echo)`), `relInner` (leave the inner
`with`), `relOuter` (leave the outer `with`).  A direct caller starts at
`qEntry` (evaluate `db.connector`). -/
inductive PC where
  | acqOuter | readField | alloc | store | callGet | cmpFor
  | createEng | setFor | relInner | relOuter | qEntry | done
  deriving DecidableEq, Repr

/-- One `EngineConnector` object: its `_lock` (owner thread id when
held), `_engine` and `_connected_for`. -/
structure ConnSt where
  lock : Option Nat
  engine : Option Nat
  connected_for : Option EKey
  deriving DecidableEq, Repr

/-- A thread: which procedure it runs, its program point, and its local
`connector` variable (an index into the heap of allocated connectors). -/
structure Thread where
  viaProp : Bool
  pc : PC
  conn : Option Nat
  deriving DecidableEq, Repr

/-- Global state: the owner of `_engine_lock`, the `self.connector`
field, every connector object ever allocated, the fresh-engine supply,
and the histories the safety property counts: connector installations
and engine-creation events (by key). -/
structure Sys where
  engineLock : Option Nat
  connector : Option Nat
  heap : List ConnSt
  nextEngine : Nat
  installs : Nat
  creations : List EKey
  threads : List Thread

/-- Interleaving semantics: any thread whose program point is enabled may
take its step.  Lock acquisition steps require the lock to be free. -/
inductive Step (k : EKey) : Sys → Sys → Prop where
  | acqOuter (s : Sys) (i : Nat) (t : Thread)
      (ht : s.threads[i]? = some t) (hpc : t.pc = .acqOuter)
      (hl : s.engineLock = none) :
      Step k s { s with engineLock := some i,
                        threads := s.threads.set i { t with pc := .readField } }
  | readFieldSome (s : Sys) (i : Nat) (t : Thread) (c : Nat)
      (ht : s.threads[i]? = some t) (hpc : t.pc = .readField)
      (hc : s.connector = some c) :
      Step k s { s with
        threads := s.threads.set i { t with pc := .callGet, conn := some c } }
  | readFieldNone (s : Sys) (i : Nat) (t : Thread)
      (ht : s.threads[i]? = some t) (hpc : t.pc = .readField)
      (hc : s.connector = none) :
      Step k s { s with threads := s.threads.set i { t with pc := .alloc } }
  | allocStep (s : Sys) (i : Nat) (t : Thread)
      (ht : s.threads[i]? = some t) (hpc : t.pc = .alloc) :
      Step k s { s with heap := s.heap ++ [⟨none, none, none⟩],
                        threads := s.threads.set i
                          { t with pc := .store, conn := some s.heap.length } }
  | storeStep (s : Sys) (i : Nat) (t : Thread) (c : Nat)
      (ht : s.threads[i]? = some t) (hpc : t.pc = .store)
      (hc : t.conn = some c) :
      Step k s { s with connector := some c, installs := s.installs + 1,
                        threads := s.threads.set i { t with pc := .callGet } }
  | callGetStep (s : Sys) (i : Nat) (t : Thread) (c : Nat) (cs : ConnSt)
      (ht : s.threads[i]? = some t) (hpc : t.pc = .callGet)
      (hc : t.conn = some c) (hcs : s.heap[c]? = some cs)
      (hl : cs.lock = none) :
      Step k s { s with heap := s.heap.set c { cs with lock := some i },
                        threads := s.threads.set i { t with pc := .cmpFor } }
  | cmpEq (s : Sys) (i : Nat) (t : Thread) (c : Nat) (cs : ConnSt)
      (ht : s.threads[i]? = some t) (hpc : t.pc = .cmpFor)
      (hc : t.conn = some c) (hcs : s.heap[c]? = some cs)
      (heq : cs.connected_for = some k) :
      Step k s { s with threads := s.threads.set i { t with pc := .relInner } }
  | cmpNe (s : Sys) (i : Nat) (t : Thread) (c : Nat) (cs : ConnSt)
      (ht : s.threads[i]? = some t) (hpc : t.pc = .cmpFor)
      (hc : t.conn = some c) (hcs : s.heap[c]? = some cs)
      (hne : cs.connected_for ≠ some k) :
      Step k s { s with threads := s.threads.set i { t with pc := .createEng } }
  | createStep (s : Sys) (i : Nat) (t : Thread) (c : Nat) (cs : ConnSt)
      (ht : s.threads[i]? = some t) (hpc : t.pc = .createEng)
      (hc : t.conn = some c) (hcs : s.heap[c]? = some cs) :
      Step k s { s with heap := s.heap.set c { cs with engine := some s.nextEngine },
                        nextEngine := s.nextEngine + 1,
                        creations := k :: s.creations,
                        threads := s.threads.set i { t with pc := .setFor } }
  | setForStep (s : Sys) (i : Nat) (t : Thread) (c : Nat) (cs : ConnSt)
      (ht : s.threads[i]? = some t) (hpc : t.pc = .setFor)
      (hc : t.conn = some c) (hcs : s.heap[c]? = some cs) :
      Step k s { s with heap := s.heap.set c { cs with connected_for := some k },
                        threads := s.threads.set i { t with pc := .relInner } }
  | relInnerProp (s : Sys) (i : Nat) (t : Thread) (c : Nat) (cs : ConnSt)
      (ht : s.threads[i]? = some t) (hpc : t.pc = .relInner)
      (hc : t.conn = some c) (hcs : s.heap[c]? = some cs)
      (hv : t.viaProp = true) :
      Step k s { s with heap := s.heap.set c { cs with lock := none },
                        threads := s.threads.set i { t with pc := .relOuter } }
  | relInnerDirect (s : Sys) (i : Nat) (t : Thread) (c : Nat) (cs : ConnSt)
      (ht : s.threads[i]? = some t) (hpc : t.pc = .relInner)
      (hc : t.conn = some c) (hcs : s.heap[c]? = some cs)
      (hv : t.viaProp = false) :
      Step k s { s with heap := s.heap.set c { cs with lock := none },
                        threads := s.threads.set i { t with pc := .done } }
  | relOuterStep (s : Sys) (i : Nat) (t : Thread)
      (ht : s.threads[i]? = some t) (hpc : t.pc = .relOuter) :
      Step k s { s with engineLock := none,
                        threads := s.threads.set i { t with pc := .done } }
  | qSome (s : Sys) (i : Nat) (t : Thread) (c : Nat)
      (ht : s.threads[i]? = some t) (hpc : t.pc = .qEntry)
      (hc : s.connector = some c) :
      Step k s { s with
        threads := s.threads.set i { t with pc := .callGet, conn := some c } }
  | qNone (s : Sys) (i : Nat) (t : Thread)
      (ht : s.threads[i]? = some t) (hpc : t.pc = .qEntry)
      (hc : s.connector = none) :
      Step k s { s with threads := s.threads.set i { t with pc := .done } }

/-- A thread about to run the `engine` property (`viaProp = true`) or a
direct `db.connector.get_engine()` call (`viaProp = false`). -/
def initThread (viaProp : Bool) : Thread :=
  { viaProp := viaProp, pc := if viaProp then .acqOuter else .qEntry, conn := none }

/-- Initial state of a fresh `ActiveAlchemy` object with the given mix of
threads: no connector installed, no lock held, nothing created. -/
def initSys (kinds : List Bool) : Sys :=
  { engineLock := none, connector := none, heap := [], nextEngine := 0,
    installs := 0, creations := [], threads := kinds.map initThread }

/-- States reachable by interleaving the threads' steps. -/
def Reach (k : EKey) (kinds : List Bool) (s : Sys) : Prop :=
  Relation.ReflTransGen (Step k) (initSys kinds) s

/-- Program points at which a property-running thread holds
`_engine_lock`. -/
def outerPCs : PC → Bool
  | .readField | .alloc | .store | .callGet | .cmpFor | .createEng
  | .setFor | .relInner | .relOuter => true
  | _ => false

/-- Program points belonging exclusively to the `engine` property. -/
def propOnlyPCs : PC → Bool
  | .acqOuter | .readField | .alloc | .store | .relOuter => true
  | _ => false

/-- Program points at which a thread holds the connector's `_lock`. -/
def innerPCs : PC → Bool
  | .cmpFor | .createEng | .setFor | .relInner => true
  | _ => false

/-- The thread holds `_engine_lock`. -/
def outerHeld (t : Thread) : Prop := t.viaProp = true ∧ outerPCs t.pc = true

/-- The thread holds its connector's `_lock`. -/
def innerHeld (t : Thread) : Prop := innerPCs t.pc = true

/-- Inductive invariant of the interleaving system. -/
structure Inv (k : EKey) (s : Sys) : Prop where
  outer_lock : ∀ (i : Nat) (t : Thread), s.threads[i]? = some t → outerHeld t →
      s.engineLock = some i
  kind_pcs : ∀ (i : Nat) (t : Thread), s.threads[i]? = some t →
      (t.viaProp = true → t.pc ≠ .qEntry) ∧
      (t.viaProp = false → propOnlyPCs t.pc = false)
  field_valid : ∀ (c : Nat), s.connector = some c → c < s.heap.length
  conn_valid : ∀ (i : Nat) (t : Thread) (c : Nat), s.threads[i]? = some t →
      t.conn = some c → c < s.heap.length
  store_field : ∀ (i : Nat) (t : Thread), s.threads[i]? = some t →
      (t.pc = .alloc ∨ t.pc = .store) → s.connector = none
  installs_eq : s.installs = (if s.connector.isSome then 1 else 0)
  heap_len : s.heap.length =
      (if s.connector.isSome then 1 else 0) +
      s.threads.countP (fun t => decide (t.pc = .store))
  inner_lock : ∀ (i : Nat) (t : Thread), s.threads[i]? = some t → innerHeld t →
      ∃ c cs, t.conn = some c ∧ s.heap[c]? = some cs ∧ cs.lock = some i
  creating_not_set : ∀ (i : Nat) (t : Thread), s.threads[i]? = some t →
      (t.pc = .createEng ∨ t.pc = .setFor) →
      ∃ c cs, t.conn = some c ∧ s.heap[c]? = some cs ∧
        cs.connected_for ≠ some k
  creations_eq : s.creations.length =
      s.heap.countP (fun cs => decide (cs.connected_for = some k)) +
      s.threads.countP (fun t => decide (t.pc = .setFor))
  creations_all : ∀ k2 ∈ s.creations, k2 = k

theorem set_lookup {α : Type} {l : List α} {i j : Nat} {a b : α}
    (h : (l.set i b)[j]? = some a) :
    (i = j ∧ b = a ∧ i < l.length) ∨ (i ≠ j ∧ l[j]? = some a) := by
  rw [List.getElem?_set] at h
  by_cases hij : i = j
  · subst hij
    rw [if_pos rfl] at h
    by_cases hlt : i < l.length
    · rw [if_pos hlt] at h
      exact Or.inl ⟨rfl, Option.some_inj.mp h, hlt⟩
    · rw [if_neg hlt] at h
      exact absurd h (by simp)
  · rw [if_neg hij] at h
    exact Or.inr ⟨hij, h⟩

theorem countP_set_balance {α : Type} (p : α → Bool) (l : List α) (i : Nat)
    (a b : α) (h : l[i]? = some a) :
    (l.set i b).countP p + (if p a then 1 else 0) =
      l.countP p + (if p b then 1 else 0) := by
  induction l generalizing i with
  | nil => simp at h
  | cons x rest ih =>
    cases i with
    | zero =>
      have hx : x = a := by simpa using h
      subst hx
      show (b :: rest).countP p + _ = _
      simp only [List.countP_cons]
      omega
    | succ n =>
      have h2 : rest[n]? = some a := by simpa using h
      show (x :: rest.set n b).countP p + _ = _
      simp only [List.countP_cons]
      have h3 := ih n h2
      omega

theorem countP_le_one {α : Type} (p : α → Bool) (l : List α)
    (h : ∀ (i j : Nat) (ti tj : α), l[i]? = some ti → l[j]? = some tj →
      p ti = true → p tj = true → i = j) :
    l.countP p ≤ 1 := by
  induction l with
  | nil => simp
  | cons a rest ih =>
    rw [List.countP_cons]
    by_cases hpa : p a = true
    · have h0 : rest.countP p = 0 := by
        rw [List.countP_eq_zero]
        intro b hb hpb
        obtain ⟨n, hn⟩ := List.getElem?_of_mem hb
        have hcontra := h 0 (n + 1) a b (by simp) (by simpa using hn) hpa hpb
        exact absurd hcontra (by omega)
      rw [h0]
      simp [hpa]
    · have hle : rest.countP p ≤ 1 := by
        apply ih
        intro i j ti tj hi hj hpi hpj
        have h4 := h (i + 1) (j + 1) ti tj (by simpa using hi)
          (by simpa using hj) hpi hpj
        omega
      have hpa2 : p a = false := eq_false_of_ne_true hpa
      simp only [hpa2, Bool.false_eq_true, if_false]
      omega

theorem inv_init (k : EKey) (kinds : List Bool) : Inv k (initSys kinds) := by
  have hthread : ∀ (i : Nat) (t : Thread),
      (initSys kinds).threads[i]? = some t →
      t = initThread true ∨ t = initThread false := by
    intro i t ht
    simp only [initSys, List.getElem?_map] at ht
    rcases hk : kinds[i]? with _ | b
    · rw [hk] at ht; simp at ht
    · rw [hk] at ht
      cases b
      · exact Or.inr (by simpa using ht.symm)
      · exact Or.inl (by simpa using ht.symm)
  have hcount0 : ∀ p : Thread → Bool, p (initThread true) = false →
      p (initThread false) = false →
      (initSys kinds).threads.countP p = 0 := by
    intro p h1 h2
    simp only [initSys]
    rw [List.countP_map, List.countP_eq_zero]
    intro b _
    cases b <;> simp [Function.comp, h1, h2]
  refine ⟨?_, ?_, ?_, ?_, ?_, ?_, ?_, ?_, ?_, ?_, ?_⟩
  · intro i t ht hout
    rcases hthread i t ht with h | h <;> subst h <;>
      simp [outerHeld, initThread, outerPCs] at hout
  · intro i t ht
    rcases hthread i t ht with h | h <;> subst h <;>
      simp [initThread, propOnlyPCs]
  · intro c hc; simp [initSys] at hc
  · intro i t c ht hc
    rcases hthread i t ht with h | h <;> subst h <;> simp [initThread] at hc
  · intro i t ht hpc
    rcases hthread i t ht with h | h <;> subst h <;>
      rcases hpc with h2 | h2 <;> simp [initThread] at h2
  · simp [initSys]
  · have hc0 := hcount0 (fun t => decide (t.pc = .store)) (by simp [initThread])
      (by simp [initThread])
    simp only [initSys] at hc0 ⊢
    rw [hc0]
    simp
  · intro i t ht hin
    rcases hthread i t ht with h | h <;> subst h <;>
      simp [innerHeld, initThread, innerPCs] at hin
  · intro i t ht hpc
    rcases hthread i t ht with h | h <;> subst h <;>
      rcases hpc with h2 | h2 <;> simp [initThread] at h2
  · have hc0 := hcount0 (fun t => decide (t.pc = .setFor)) (by simp [initThread])
      (by simp [initThread])
    simp only [initSys] at hc0 ⊢
    rw [hc0]
    simp
  · intro k2 hk2; simp [initSys] at hk2

theorem lt_of_some {α : Type} {l : List α} {i : Nat} {a : α}
    (h : l[i]? = some a) : i < l.length := (List.getElem?_eq_some_iff.mp h).1

theorem set_self_of {α : Type} {l : List α} {i : Nat} {a : α} (b : α)
    (h : l[i]? = some a) : (l.set i b)[i]? = some b :=
  List.getElem?_set_self (lt_of_some h)

theorem countP_set_eq {α : Type} (p : α → Bool) (l : List α) (i : Nat)
    (a b : α) (h : l[i]? = some a) (heq : p b = p a) :
    (l.set i b).countP p = l.countP p := by
  have hbal := countP_set_balance p l i a b h
  rw [heq] at hbal
  omega

theorem countP_set_add {α : Type} (p : α → Bool) (l : List α) (i : Nat)
    (a b : α) (h : l[i]? = some a) (hfa : p a = false) (hfb : p b = true) :
    (l.set i b).countP p = l.countP p + 1 := by
  have hbal := countP_set_balance p l i a b h
  rw [hfa, hfb] at hbal
  simp at hbal
  omega

theorem countP_set_sub {α : Type} (p : α → Bool) (l : List α) (i : Nat)
    (a b : α) (h : l[i]? = some a) (hfa : p a = true) (hfb : p b = false) :
    (l.set i b).countP p + 1 = l.countP p := by
  have hbal := countP_set_balance p l i a b h
  rw [hfa, hfb] at hbal
  simp at hbal
  omega

theorem viaProp_of_propOnly {k : EKey} {s : Sys} (hinv : Inv k s) (i : Nat)
    (t : Thread) (ht : s.threads[i]? = some t)
    (hpc : propOnlyPCs t.pc = true) : t.viaProp = true := by
  by_cases hb : t.viaProp = true
  · exact hb
  · have hb2 : t.viaProp = false := by
      cases hv : t.viaProp
      · rfl
      · exact absurd hv hb
    have h2 := (hinv.kind_pcs i t ht).2 hb2
    rw [hpc] at h2
    exact absurd h2 (by simp)

theorem store_count_le_one {k : EKey} {s : Sys} (hinv : Inv k s) :
    s.threads.countP (fun t => decide (t.pc = .store)) ≤ 1 := by
  apply countP_le_one
  intro i j ti tj hi hj hpi hpj
  have hpi2 : ti.pc = .store := of_decide_eq_true hpi
  have hpj2 : tj.pc = .store := of_decide_eq_true hpj
  have hvi : ti.viaProp = true :=
    viaProp_of_propOnly hinv i ti hi (by rw [hpi2]; rfl)
  have hvj : tj.viaProp = true :=
    viaProp_of_propOnly hinv j tj hj (by rw [hpj2]; rfl)
  have e1 := hinv.outer_lock i ti hi ⟨hvi, by rw [hpi2]; rfl⟩
  have e2 := hinv.outer_lock j tj hj ⟨hvj, by rw [hpj2]; rfl⟩
  rw [e1] at e2
  exact Option.some_inj.mp e2

theorem heap_len_le_one {k : EKey} {s : Sys} (hinv : Inv k s) :
    s.heap.length ≤ 1 := by
  rw [hinv.heap_len]
  rcases hc : s.connector with _ | c
  · have h1 := store_count_le_one hinv
    simp only [hc, Option.isSome_none, Bool.false_eq_true, if_false]
    omega
  · have h0 : s.threads.countP (fun t => decide (t.pc = .store)) = 0 := by
      rw [List.countP_eq_zero]
      intro t htmem hpt
      obtain ⟨n, hn⟩ := List.getElem?_of_mem htmem
      have h2 := hinv.store_field n t hn (Or.inr (of_decide_eq_true hpt))
      rw [hc] at h2
      exact absurd h2 (by simp)
    simp only [hc, Option.isSome_some, if_true, h0]
    omega

theorem setFor_count_le_one {k : EKey} {s : Sys} (hinv : Inv k s) :
    s.threads.countP (fun t => decide (t.pc = .setFor)) ≤ 1 := by
  apply countP_le_one
  intro i j ti tj hi hj hpi hpj
  have hpi2 : ti.pc = .setFor := of_decide_eq_true hpi
  have hpj2 : tj.pc = .setFor := of_decide_eq_true hpj
  obtain ⟨ci, csi, hci, hcsi, hli⟩ :=
    hinv.inner_lock i ti hi (by simp [innerHeld, innerPCs, hpi2])
  obtain ⟨cj, csj, hcj, hcsj, hlj⟩ :=
    hinv.inner_lock j tj hj (by simp [innerHeld, innerPCs, hpj2])
  have hlen := heap_len_le_one hinv
  have hlt1 := lt_of_some hcsi
  have hlt2 := lt_of_some hcsj
  have hcc : ci = cj := by omega
  subst hcc
  rw [hcsi] at hcsj
  have hcs : csi = csj := Option.some_inj.mp hcsj
  subst hcs
  rw [hli] at hlj
  exact Option.some_inj.mp hlj

theorem creations_le_one {k : EKey} {s : Sys} (hinv : Inv k s) :
    s.creations.length ≤ 1 := by
  rw [hinv.creations_eq]
  have hset := setFor_count_le_one hinv
  have hheap : s.heap.countP (fun cs => decide (cs.connected_for = some k)) ≤ 1 :=
    le_trans (List.countP_le_length _) (heap_len_le_one hinv)
  by_cases hzero :
      s.heap.countP (fun cs => decide (cs.connected_for = some k)) = 0
  · omega
  · have hpos : 0 < s.heap.countP (fun cs => decide (cs.connected_for = some k)) :=
      Nat.pos_of_ne_zero hzero
    obtain ⟨cs0, hmem, hp0⟩ := List.countP_pos.mp hpos
    have hs0 : s.threads.countP (fun t => decide (t.pc = .setFor)) = 0 := by
      rw [List.countP_eq_zero]
      intro t htmem hpt
      obtain ⟨n, hn⟩ := List.getElem?_of_mem htmem
      obtain ⟨c, cs, hc, hcs, hne⟩ :=
        hinv.creating_not_set n t hn (Or.inr (of_decide_eq_true hpt))
      obtain ⟨m, hm⟩ := List.getElem?_of_mem hmem
      have hclt := lt_of_some hcs
      have hmlt := lt_of_some hm
      have hlen := heap_len_le_one hinv
      have hcm : c = m := by omega
      subst hcm
      rw [hcs] at hm
      have hcs2 : cs = cs0 := Option.some_inj.mp hm
      subst hcs2
      exact hne (of_decide_eq_true hp0)
    omega

/-- Preservation helper for steps that change only one thread's local
state (program point and local variable), leaving every shared field
untouched. -/
theorem inv_threads_update {k : EKey} {s : Sys} (hinv : Inv k s) (i : Nat)
    (t t2 : Thread) (ht : s.threads[i]? = some t)
    (houter : outerHeld t2 → s.engineLock = some i)
    (hkind : (t2.viaProp = true → t2.pc ≠ .qEntry) ∧
      (t2.viaProp = false → propOnlyPCs t2.pc = false))
    (hconn : ∀ c : Nat, t2.conn = some c → c < s.heap.length)
    (hstoref : (t2.pc = .alloc ∨ t2.pc = .store) → s.connector = none)
    (hstore_cnt : decide (t2.pc = .store) = decide (t.pc = .store))
    (hsetfor_cnt : decide (t2.pc = .setFor) = decide (t.pc = .setFor))
    (hinner : innerHeld t2 →
      ∃ c cs, t2.conn = some c ∧ s.heap[c]? = some cs ∧ cs.lock = some i)
    (hcreating : (t2.pc = .createEng ∨ t2.pc = .setFor) →
      ∃ c cs, t2.conn = some c ∧ s.heap[c]? = some cs ∧
        cs.connected_for ≠ some k) :
    Inv k { s with threads := s.threads.set i t2 } := by
  refine ⟨?_, ?_, ?_, ?_, ?_, ?_, ?_, ?_, ?_, ?_, ?_⟩
  · intro j u hju hou
    rcases set_lookup hju with ⟨hij, hub, _⟩ | ⟨hij, hold⟩
    · subst hij; subst hub; exact houter hou
    · exact hinv.outer_lock j u hold hou
  · intro j u hju
    rcases set_lookup hju with ⟨hij, hub, _⟩ | ⟨hij, hold⟩
    · subst hub; exact hkind
    · exact hinv.kind_pcs j u hold
  · intro c hc
    exact hinv.field_valid c hc
  · intro j u c hju hc
    rcases set_lookup hju with ⟨hij, hub, _⟩ | ⟨hij, hold⟩
    · subst hub; exact hconn c hc
    · exact hinv.conn_valid j u c hold hc
  · intro j u hju hpc
    rcases set_lookup hju with ⟨hij, hub, _⟩ | ⟨hij, hold⟩
    · subst hub; exact hstoref hpc
    · exact hinv.store_field j u hold hpc
  · exact hinv.installs_eq
  · show s.heap.length = _ +
      (s.threads.set i t2).countP (fun u => decide (u.pc = .store))
    rw [countP_set_eq _ _ _ _ _ ht hstore_cnt]
    exact hinv.heap_len
  · intro j u hju hiu
    rcases set_lookup hju with ⟨hij, hub, _⟩ | ⟨hij, hold⟩
    · subst hij; subst hub; exact hinner hiu
    · exact hinv.inner_lock j u hold hiu
  · intro j u hju hpc
    rcases set_lookup hju with ⟨hij, hub, _⟩ | ⟨hij, hold⟩
    · subst hub; exact hcreating hpc
    · exact hinv.creating_not_set j u hold hpc
  · show s.creations.length = _ +
      (s.threads.set i t2).countP (fun u => decide (u.pc = .setFor))
    rw [countP_set_eq _ _ _ _ _ ht hsetfor_cnt]
    exact hinv.creations_eq
  · exact hinv.creations_all

theorem countP_pc_set_ne (P : PC) (l : List Thread) (i : Nat) (t t2 : Thread)
    (ht : l[i]? = some t) (h1 : t.pc ≠ P) (h2 : t2.pc ≠ P) :
    (l.set i t2).countP (fun u => decide (u.pc = P)) =
      l.countP (fun u => decide (u.pc = P)) :=
  countP_set_eq _ l i t t2 ht (by
    show decide (t2.pc = P) = decide (t.pc = P)
    rw [decide_eq_false h2, decide_eq_false h1])

theorem countP_pc_set_enter (P : PC) (l : List Thread) (i : Nat) (t t2 : Thread)
    (ht : l[i]? = some t) (h1 : t.pc ≠ P) (h2 : t2.pc = P) :
    (l.set i t2).countP (fun u => decide (u.pc = P)) =
      l.countP (fun u => decide (u.pc = P)) + 1 :=
  countP_set_add _ l i t t2 ht
    (by show decide (t.pc = P) = false; exact decide_eq_false h1)
    (by show decide (t2.pc = P) = true; exact decide_eq_true h2)

theorem countP_pc_set_leave (P : PC) (l : List Thread) (i : Nat) (t t2 : Thread)
    (ht : l[i]? = some t) (h1 : t.pc = P) (h2 : t2.pc ≠ P) :
    (l.set i t2).countP (fun u => decide (u.pc = P)) + 1 =
      l.countP (fun u => decide (u.pc = P)) :=
  countP_set_sub _ l i t t2 ht
    (by show decide (t.pc = P) = true; exact decide_eq_true h1)
    (by show decide (t2.pc = P) = false; exact decide_eq_false h2)

theorem countP_key_set_eq (k : EKey) (l : List ConnSt) (i : Nat) (a b : ConnSt)
    (h : l[i]? = some a) (heq : b.connected_for = a.connected_for) :
    (l.set i b).countP (fun cs => decide (cs.connected_for = some k)) =
      l.countP (fun cs => decide (cs.connected_for = some k)) :=
  countP_set_eq _ l i a b h (by
    show decide (b.connected_for = some k) = decide (a.connected_for = some k)
    rw [heq])

theorem countP_key_set_add (k : EKey) (l : List ConnSt) (i : Nat) (a b : ConnSt)
    (h : l[i]? = some a) (h1 : a.connected_for ≠ some k)
    (h2 : b.connected_for = some k) :
    (l.set i b).countP (fun cs => decide (cs.connected_for = some k)) =
      l.countP (fun cs => decide (cs.connected_for = some k)) + 1 :=
  countP_set_add _ l i a b h
    (by show decide (a.connected_for = some k) = false; exact decide_eq_false h1)
    (by show decide (b.connected_for = some k) = true; exact decide_eq_true h2)

/-- Every step of the interleaving semantics preserves the invariant. -/
theorem inv_step {k : EKey} {s s2 : Sys} (hinv : Inv k s)
    (hstep : Step k s s2) : Inv k s2 := by
  cases hstep with
  | acqOuter i t ht hpc hl =>
    refine ⟨?_, ?_, ?_, ?_, ?_, ?_, ?_, ?_, ?_, ?_, ?_⟩
    · intro j u hju hou
      rcases set_lookup hju with ⟨hij, hub, _⟩ | ⟨hij, hold⟩
      · subst hij; rfl
      · have h2 := hinv.outer_lock j u hold hou
        rw [hl] at h2
        exact absurd h2 (by simp)
    · intro j u hju
      rcases set_lookup hju with ⟨hij, hub, _⟩ | ⟨hij, hold⟩
      · subst hub
        refine ⟨fun _ hh => PC.noConfusion hh, fun hf => ?_⟩
        have h2 := (hinv.kind_pcs i t ht).2 hf
        rw [hpc] at h2
        exact absurd h2 (by decide)
      · exact hinv.kind_pcs j u hold
    · intro c hc; exact hinv.field_valid c hc
    · intro j u c hju hc
      rcases set_lookup hju with ⟨hij, hub, _⟩ | ⟨hij, hold⟩
      · subst hub; exact hinv.conn_valid i t c ht hc
      · exact hinv.conn_valid j u c hold hc
    · intro j u hju hpc2
      rcases set_lookup hju with ⟨hij, hub, _⟩ | ⟨hij, hold⟩
      · subst hub; rcases hpc2 with h | h <;> exact PC.noConfusion h
      · exact hinv.store_field j u hold hpc2
    · exact hinv.installs_eq
    · have hgoal : s.heap.length = (if s.connector.isSome then 1 else 0) +
          (s.threads.set i { t with pc := PC.readField }).countP
            (fun u => decide (u.pc = PC.store)) := by
        rw [countP_pc_set_ne PC.store s.threads i t
          { t with pc := PC.readField } ht (by simp [hpc]) (fun hh => PC.noConfusion hh)]
        exact hinv.heap_len
      exact hgoal
    · intro j u hju hiu
      rcases set_lookup hju with ⟨hij, hub, _⟩ | ⟨hij, hold⟩
      · subst hub; exact Bool.noConfusion hiu
      · exact hinv.inner_lock j u hold hiu
    · intro j u hju hpc2
      rcases set_lookup hju with ⟨hij, hub, _⟩ | ⟨hij, hold⟩
      · subst hub; rcases hpc2 with h | h <;> exact PC.noConfusion h
      · exact hinv.creating_not_set j u hold hpc2
    · have hgoal : s.creations.length =
          s.heap.countP (fun cs => decide (cs.connected_for = some k)) +
          (s.threads.set i { t with pc := PC.readField }).countP
            (fun u => decide (u.pc = PC.setFor)) := by
        rw [countP_pc_set_ne PC.setFor s.threads i t
          { t with pc := PC.readField } ht (by simp [hpc]) (fun hh => PC.noConfusion hh)]
        exact hinv.creations_eq
      exact hgoal
    · exact hinv.creations_all
  | readFieldSome i t c ht hpc hc =>
    refine inv_threads_update hinv i t _ ht ?_ ?_ ?_ ?_ ?_ ?_ ?_ ?_
    · intro hou
      exact hinv.outer_lock i t ht ⟨hou.1, by rw [hpc]; rfl⟩
    · exact ⟨fun _ hh => PC.noConfusion hh, fun _ => rfl⟩
    · intro c2 hc2
      have hcc : c = c2 := Option.some_inj.mp hc2
      subst hcc
      exact hinv.field_valid c hc
    · intro habs; rcases habs with h | h <;> exact PC.noConfusion h
    · rw [hpc]; rfl
    · rw [hpc]; rfl
    · intro hin; exact Bool.noConfusion hin
    · intro habs; rcases habs with h | h <;> exact PC.noConfusion h
  | readFieldNone i t ht hpc hc =>
    refine inv_threads_update hinv i t _ ht ?_ ?_ ?_ ?_ ?_ ?_ ?_ ?_
    · intro hou
      exact hinv.outer_lock i t ht ⟨hou.1, by rw [hpc]; rfl⟩
    · refine ⟨fun _ hh => PC.noConfusion hh, fun hf => ?_⟩
      have h2 := (hinv.kind_pcs i t ht).2 hf
      rw [hpc] at h2
      exact absurd h2 (by decide)
    · intro c2 hc2; exact hinv.conn_valid i t c2 ht hc2
    · intro _; exact hc
    · rw [hpc]; rfl
    · rw [hpc]; rfl
    · intro hin; exact Bool.noConfusion hin
    · intro habs; rcases habs with h | h <;> exact PC.noConfusion h
  | allocStep i t ht hpc =>
    have hconnNone : s.connector = none := hinv.store_field i t ht (Or.inl hpc)
    refine ⟨?_, ?_, ?_, ?_, ?_, ?_, ?_, ?_, ?_, ?_, ?_⟩
    · intro j u hju hou
      rcases set_lookup hju with ⟨hij, hub, _⟩ | ⟨hij, hold⟩
      · subst hij; subst hub
        exact hinv.outer_lock i t ht ⟨hou.1, by rw [hpc]; rfl⟩
      · exact hinv.outer_lock j u hold hou
    · intro j u hju
      rcases set_lookup hju with ⟨hij, hub, _⟩ | ⟨hij, hold⟩
      · subst hub
        refine ⟨fun _ hh => PC.noConfusion hh, fun hf => ?_⟩
        have h2 := (hinv.kind_pcs i t ht).2 hf
        rw [hpc] at h2
        exact absurd h2 (by decide)
      · exact hinv.kind_pcs j u hold
    · intro c hc
      have h2 := hinv.field_valid c hc
      have hgoal : c < (s.heap ++ [(⟨none, none, none⟩ : ConnSt)]).length := by
        rw [List.length_append]
        omega
      exact hgoal
    · intro j u c hju hc
      have hlen : (s.heap ++ [(⟨none, none, none⟩ : ConnSt)]).length =
          s.heap.length + 1 := by simp
      rcases set_lookup hju with ⟨hij, hub, _⟩ | ⟨hij, hold⟩
      · subst hub
        have hcc : s.heap.length = c := Option.some_inj.mp hc
        show c < (s.heap ++ [(⟨none, none, none⟩ : ConnSt)]).length
        omega
      · have h2 := hinv.conn_valid j u c hold hc
        show c < (s.heap ++ [(⟨none, none, none⟩ : ConnSt)]).length
        omega
    · intro j u hju hpc2
      rcases set_lookup hju with ⟨hij, hub, _⟩ | ⟨hij, hold⟩
      · subst hub; exact hconnNone
      · exact hinv.store_field j u hold hpc2
    · exact hinv.installs_eq
    · have hadd := countP_pc_set_enter PC.store s.threads i t
        { t with pc := PC.store, conn := some s.heap.length } ht (by simp [hpc]) rfl
      have h7 := hinv.heap_len
      have hgoal : (s.heap ++ [(⟨none, none, none⟩ : ConnSt)]).length =
          (if s.connector.isSome then 1 else 0) +
          (s.threads.set i { t with pc := PC.store, conn := some s.heap.length }).countP
            (fun u => decide (u.pc = PC.store)) := by
        rw [hadd]
        simp only [List.length_append, List.length_cons, List.length_nil]
        omega
      exact hgoal
    · intro j u hju hiu
      rcases set_lookup hju with ⟨hij, hub, _⟩ | ⟨hij, hold⟩
      · subst hub; exact Bool.noConfusion hiu
      · obtain ⟨cj, csj, hcj, hcsj, hlj⟩ := hinv.inner_lock j u hold hiu
        refine ⟨cj, csj, hcj, ?_, hlj⟩
        rw [List.getElem?_append_left (lt_of_some hcsj)]
        exact hcsj
    · intro j u hju hpc2
      rcases set_lookup hju with ⟨hij, hub, _⟩ | ⟨hij, hold⟩
      · subst hub; rcases hpc2 with h | h <;> exact PC.noConfusion h
      · obtain ⟨cj, csj, hcj, hcsj, hnej⟩ := hinv.creating_not_set j u hold hpc2
        refine ⟨cj, csj, hcj, ?_, hnej⟩
        rw [List.getElem?_append_left (lt_of_some hcsj)]
        exact hcsj
    · have heqc := countP_pc_set_ne PC.setFor s.threads i t
        { t with pc := PC.store, conn := some s.heap.length } ht (by simp [hpc]) (fun hh => PC.noConfusion hh)
      have h10 := hinv.creations_eq
      have hgoal : s.creations.length =
          (s.heap ++ [(⟨none, none, none⟩ : ConnSt)]).countP
            (fun cs => decide (cs.connected_for = some k)) +
          (s.threads.set i { t with pc := PC.store, conn := some s.heap.length }).countP
            (fun u => decide (u.pc = PC.setFor)) := by
        rw [List.countP_append, heqc]
        have hnil : ([(⟨none, none, none⟩ : ConnSt)]).countP
            (fun cs => decide (cs.connected_for = some k)) = 0 := by
          simp [List.countP_cons]
        omega
      exact hgoal
    · exact hinv.creations_all
  | storeStep i t c ht hpc hc =>
    have hconnNone : s.connector = none := hinv.store_field i t ht (Or.inr hpc)
    have hvia : t.viaProp = true :=
      viaProp_of_propOnly hinv i t ht (by rw [hpc]; rfl)
    have hlock : s.engineLock = some i :=
      hinv.outer_lock i t ht ⟨hvia, by rw [hpc]; rfl⟩
    refine ⟨?_, ?_, ?_, ?_, ?_, ?_, ?_, ?_, ?_, ?_, ?_⟩
    · intro j u hju hou
      rcases set_lookup hju with ⟨hij, hub, _⟩ | ⟨hij, hold⟩
      · subst hij; subst hub; exact hlock
      · exact hinv.outer_lock j u hold hou
    · intro j u hju
      rcases set_lookup hju with ⟨hij, hub, _⟩ | ⟨hij, hold⟩
      · subst hub; exact ⟨fun _ hh => PC.noConfusion hh, fun _ => rfl⟩
      · exact hinv.kind_pcs j u hold
    · intro c2 hc2
      have hcc : c = c2 := Option.some_inj.mp hc2
      subst hcc
      exact hinv.conn_valid i t c ht hc
    · intro j u c2 hju hc2
      rcases set_lookup hju with ⟨hij, hub, _⟩ | ⟨hij, hold⟩
      · subst hub; exact hinv.conn_valid i t c2 ht hc2
      · exact hinv.conn_valid j u c2 hold hc2
    · intro j u hju hpc2
      rcases set_lookup hju with ⟨hij, hub, _⟩ | ⟨hij, hold⟩
      · subst hub; rcases hpc2 with h | h <;> exact PC.noConfusion h
      · have hviau : u.viaProp = true := viaProp_of_propOnly hinv j u hold
          (by rcases hpc2 with h | h <;> rw [h] <;> rfl)
        have hlockj := hinv.outer_lock j u hold
          ⟨hviau, by rcases hpc2 with h | h <;> rw [h] <;> rfl⟩
        rw [hlock] at hlockj
        exact absurd (Option.some_inj.mp hlockj) hij
    · have h6 := hinv.installs_eq
      rw [hconnNone] at h6
      simp only [Option.isSome_none, Bool.false_eq_true, if_false] at h6
      have hgoal : s.installs + 1 =
          (if (some c : Option Nat).isSome then 1 else 0) := by
        rw [h6]
        rfl
      exact hgoal
    · have hsub := countP_pc_set_leave PC.store s.threads i t
        { t with pc := PC.callGet } ht hpc (fun hh => PC.noConfusion hh)
      have h7 := hinv.heap_len
      rw [hconnNone] at h7
      simp only [Option.isSome_none, Bool.false_eq_true, if_false] at h7
      have hgoal : s.heap.length =
          (if (some c : Option Nat).isSome then 1 else 0) +
          (s.threads.set i { t with pc := PC.callGet }).countP
            (fun u => decide (u.pc = PC.store)) := by
        simp only [Option.isSome_some, if_true]
        omega
      exact hgoal
    · intro j u hju hiu
      rcases set_lookup hju with ⟨hij, hub, _⟩ | ⟨hij, hold⟩
      · subst hub; exact Bool.noConfusion hiu
      · exact hinv.inner_lock j u hold hiu
    · intro j u hju hpc2
      rcases set_lookup hju with ⟨hij, hub, _⟩ | ⟨hij, hold⟩
      · subst hub; rcases hpc2 with h | h <;> exact PC.noConfusion h
      · exact hinv.creating_not_set j u hold hpc2
    · have heqc := countP_pc_set_ne PC.setFor s.threads i t
        { t with pc := PC.callGet } ht (by simp [hpc]) (fun hh => PC.noConfusion hh)
      have hgoal : s.creations.length =
          s.heap.countP (fun cs => decide (cs.connected_for = some k)) +
          (s.threads.set i { t with pc := PC.callGet }).countP
            (fun u => decide (u.pc = PC.setFor)) := by
        rw [heqc]
        exact hinv.creations_eq
      exact hgoal
    · exact hinv.creations_all
  | callGetStep i t c cs ht hpc hc hcs hl =>
    refine ⟨?_, ?_, ?_, ?_, ?_, ?_, ?_, ?_, ?_, ?_, ?_⟩
    · intro j u hju hou
      rcases set_lookup hju with ⟨hij, hub, _⟩ | ⟨hij, hold⟩
      · subst hij; subst hub
        exact hinv.outer_lock i t ht ⟨hou.1, by rw [hpc]; rfl⟩
      · exact hinv.outer_lock j u hold hou
    · intro j u hju
      rcases set_lookup hju with ⟨hij, hub, _⟩ | ⟨hij, hold⟩
      · subst hub; exact ⟨fun _ hh => PC.noConfusion hh, fun _ => rfl⟩
      · exact hinv.kind_pcs j u hold
    · intro c2 hc2
      have h2 := hinv.field_valid c2 hc2
      show c2 < (s.heap.set c { cs with lock := some i }).length
      rw [List.length_set]
      exact h2
    · intro j u c2 hju hc2
      have hgoal : c2 < (s.heap.set c { cs with lock := some i }).length := by
        rw [List.length_set]
        rcases set_lookup hju with ⟨hij, hub, _⟩ | ⟨hij, hold⟩
        · subst hub; exact hinv.conn_valid i t c2 ht hc2
        · exact hinv.conn_valid j u c2 hold hc2
      exact hgoal
    · intro j u hju hpc2
      rcases set_lookup hju with ⟨hij, hub, _⟩ | ⟨hij, hold⟩
      · subst hub; rcases hpc2 with h | h <;> exact PC.noConfusion h
      · exact hinv.store_field j u hold hpc2
    · exact hinv.installs_eq
    · have heqc := countP_pc_set_ne PC.store s.threads i t
        { t with pc := PC.cmpFor } ht (by simp [hpc]) (fun hh => PC.noConfusion hh)
      have hgoal : (s.heap.set c { cs with lock := some i }).length =
          (if s.connector.isSome then 1 else 0) +
          (s.threads.set i { t with pc := PC.cmpFor }).countP
            (fun u => decide (u.pc = PC.store)) := by
        rw [List.length_set, heqc]
        exact hinv.heap_len
      exact hgoal
    · intro j u hju hiu
      rcases set_lookup hju with ⟨hij, hub, _⟩ | ⟨hij, hold⟩
      · subst hij; subst hub
        exact ⟨c, { cs with lock := some i }, hc, set_self_of _ hcs, rfl⟩
      · obtain ⟨cj, csj, hcj, hcsj, hlj⟩ := hinv.inner_lock j u hold hiu
        by_cases hcjc : cj = c
        · subst hcjc
          rw [hcs] at hcsj
          have hcseq : cs = csj := Option.some_inj.mp hcsj
          rw [← hcseq] at hlj
          rw [hl] at hlj
          exact absurd hlj (by simp)
        · refine ⟨cj, csj, hcj, ?_, hlj⟩
          rw [List.getElem?_set_ne (show c ≠ cj from fun hcc => hcjc hcc.symm)]
          exact hcsj
    · intro j u hju hpc2
      rcases set_lookup hju with ⟨hij, hub, _⟩ | ⟨hij, hold⟩
      · subst hub; rcases hpc2 with h | h <;> exact PC.noConfusion h
      · obtain ⟨cj, csj, hcj, hcsj, hnej⟩ := hinv.creating_not_set j u hold hpc2
        by_cases hcjc : cj = c
        · subst hcjc
          obtain ⟨cj2, csj2, hcj2, hcsj2, hlj2⟩ := hinv.inner_lock j u hold
            (show innerPCs u.pc = true by rcases hpc2 with h | h <;> rw [h] <;> rfl)
          rw [hcj] at hcj2
          have hcc : cj = cj2 := Option.some_inj.mp hcj2
          rw [← hcc] at hcsj2
          rw [hcs] at hcsj2
          have hcseq : cs = csj2 := Option.some_inj.mp hcsj2
          rw [← hcseq] at hlj2
          rw [hl] at hlj2
          exact absurd hlj2 (by simp)
        · refine ⟨cj, csj, hcj, ?_, hnej⟩
          rw [List.getElem?_set_ne (show c ≠ cj from fun hcc => hcjc hcc.symm)]
          exact hcsj
    · have heqt := countP_pc_set_ne PC.setFor s.threads i t
        { t with pc := PC.cmpFor } ht (by simp [hpc]) (fun hh => PC.noConfusion hh)
      have heqh := countP_key_set_eq k s.heap c cs { cs with lock := some i } hcs rfl
      have hgoal : s.creations.length =
          (s.heap.set c { cs with lock := some i }).countP
            (fun cs2 => decide (cs2.connected_for = some k)) +
          (s.threads.set i { t with pc := PC.cmpFor }).countP
            (fun u => decide (u.pc = PC.setFor)) := by
        rw [heqt, heqh]
        exact hinv.creations_eq
      exact hgoal
    · exact hinv.creations_all
  | cmpEq i t c cs ht hpc hc hcs heq =>
    refine inv_threads_update hinv i t _ ht ?_ ?_ ?_ ?_ ?_ ?_ ?_ ?_
    · intro hou
      exact hinv.outer_lock i t ht ⟨hou.1, by rw [hpc]; rfl⟩
    · exact ⟨fun _ hh => PC.noConfusion hh, fun _ => rfl⟩
    · intro c2 hc2; exact hinv.conn_valid i t c2 ht hc2
    · intro habs; rcases habs with h | h <;> exact PC.noConfusion h
    · rw [hpc]; rfl
    · rw [hpc]; rfl
    · intro _
      exact hinv.inner_lock i t ht (show innerPCs t.pc = true by rw [hpc]; rfl)
    · intro habs; rcases habs with h | h <;> exact PC.noConfusion h
  | cmpNe i t c cs ht hpc hc hcs hne =>
    refine inv_threads_update hinv i t _ ht ?_ ?_ ?_ ?_ ?_ ?_ ?_ ?_
    · intro hou
      exact hinv.outer_lock i t ht ⟨hou.1, by rw [hpc]; rfl⟩
    · exact ⟨fun _ hh => PC.noConfusion hh, fun _ => rfl⟩
    · intro c2 hc2; exact hinv.conn_valid i t c2 ht hc2
    · intro habs; rcases habs with h | h <;> exact PC.noConfusion h
    · rw [hpc]; rfl
    · rw [hpc]; rfl
    · intro _
      exact hinv.inner_lock i t ht (show innerPCs t.pc = true by rw [hpc]; rfl)
    · intro _
      exact ⟨c, cs, hc, hcs, hne⟩
  | createStep i t c cs ht hpc hc hcs =>
    obtain ⟨c0, cs0, hc0, hcs0, hli0⟩ := hinv.inner_lock i t ht
      (show innerPCs t.pc = true by rw [hpc]; rfl)
    rw [hc] at hc0
    have hcc0 : c = c0 := Option.some_inj.mp hc0
    rw [← hcc0] at hcs0
    rw [hcs] at hcs0
    have hcs0eq : cs = cs0 := Option.some_inj.mp hcs0
    rw [← hcs0eq] at hli0
    obtain ⟨c1, cs1, hc1, hcs1, hne1⟩ := hinv.creating_not_set i t ht (Or.inl hpc)
    rw [hc] at hc1
    have hcc1 : c = c1 := Option.some_inj.mp hc1
    rw [← hcc1] at hcs1
    rw [hcs] at hcs1
    have hcs1eq : cs = cs1 := Option.some_inj.mp hcs1
    rw [← hcs1eq] at hne1
    refine ⟨?_, ?_, ?_, ?_, ?_, ?_, ?_, ?_, ?_, ?_, ?_⟩
    · intro j u hju hou
      rcases set_lookup hju with ⟨hij, hub, _⟩ | ⟨hij, hold⟩
      · subst hij; subst hub
        exact hinv.outer_lock i t ht ⟨hou.1, by rw [hpc]; rfl⟩
      · exact hinv.outer_lock j u hold hou
    · intro j u hju
      rcases set_lookup hju with ⟨hij, hub, _⟩ | ⟨hij, hold⟩
      · subst hub; exact ⟨fun _ hh => PC.noConfusion hh, fun _ => rfl⟩
      · exact hinv.kind_pcs j u hold
    · intro c2 hc2
      have h2 := hinv.field_valid c2 hc2
      show c2 < (s.heap.set c { cs with engine := some s.nextEngine }).length
      rw [List.length_set]
      exact h2
    · intro j u c2 hju hc2
      have hgoal : c2 <
          (s.heap.set c { cs with engine := some s.nextEngine }).length := by
        rw [List.length_set]
        rcases set_lookup hju with ⟨hij, hub, _⟩ | ⟨hij, hold⟩
        · subst hub; exact hinv.conn_valid i t c2 ht hc2
        · exact hinv.conn_valid j u c2 hold hc2
      exact hgoal
    · intro j u hju hpc2
      rcases set_lookup hju with ⟨hij, hub, _⟩ | ⟨hij, hold⟩
      · subst hub; rcases hpc2 with h | h <;> exact PC.noConfusion h
      · exact hinv.store_field j u hold hpc2
    · exact hinv.installs_eq
    · have heqt := countP_pc_set_ne PC.store s.threads i t
        { t with pc := PC.setFor } ht (by simp [hpc]) (fun hh => PC.noConfusion hh)
      have hgoal : (s.heap.set c { cs with engine := some s.nextEngine }).length =
          (if s.connector.isSome then 1 else 0) +
          (s.threads.set i { t with pc := PC.setFor }).countP
            (fun u => decide (u.pc = PC.store)) := by
        rw [List.length_set, heqt]
        exact hinv.heap_len
      exact hgoal
    · intro j u hju hiu
      rcases set_lookup hju with ⟨hij, hub, _⟩ | ⟨hij, hold⟩
      · subst hij; subst hub
        exact ⟨c, { cs with engine := some s.nextEngine }, hc,
          set_self_of _ hcs, hli0⟩
      · obtain ⟨cj, csj, hcj, hcsj, hlj⟩ := hinv.inner_lock j u hold hiu
        by_cases hcjc : cj = c
        · subst hcjc
          rw [hcs] at hcsj
          have hcseq : cs = csj := Option.some_inj.mp hcsj
          rw [← hcseq] at hlj
          rw [hli0] at hlj
          exact absurd (Option.some_inj.mp hlj) hij
        · refine ⟨cj, csj, hcj, ?_, hlj⟩
          rw [List.getElem?_set_ne (show c ≠ cj from fun hcc => hcjc hcc.symm)]
          exact hcsj
    · intro j u hju hpc2
      rcases set_lookup hju with ⟨hij, hub, _⟩ | ⟨hij, hold⟩
      · subst hub
        exact ⟨c, { cs with engine := some s.nextEngine }, hc,
          set_self_of _ hcs, hne1⟩
      · obtain ⟨cj, csj, hcj, hcsj, hnej⟩ := hinv.creating_not_set j u hold hpc2
        by_cases hcjc : cj = c
        · subst hcjc
          obtain ⟨cj2, csj2, hcj2, hcsj2, hlj2⟩ := hinv.inner_lock j u hold
            (show innerPCs u.pc = true by rcases hpc2 with h | h <;> rw [h] <;> rfl)
          rw [hcj] at hcj2
          have hcc : cj = cj2 := Option.some_inj.mp hcj2
          rw [← hcc] at hcsj2
          rw [hcs] at hcsj2
          have hcseq : cs = csj2 := Option.some_inj.mp hcsj2
          rw [← hcseq] at hlj2
          rw [hli0] at hlj2
          exact absurd (Option.some_inj.mp hlj2) hij
        · refine ⟨cj, csj, hcj, ?_, hnej⟩
          rw [List.getElem?_set_ne (show c ≠ cj from fun hcc => hcjc hcc.symm)]
          exact hcsj
    · have hadd := countP_pc_set_enter PC.setFor s.threads i t
        { t with pc := PC.setFor } ht (by simp [hpc]) rfl
      have heqh := countP_key_set_eq k s.heap c cs { cs with engine := some s.nextEngine } hcs rfl
      have h10 := hinv.creations_eq
      have hgoal : (k :: s.creations).length =
          (s.heap.set c { cs with engine := some s.nextEngine }).countP
            (fun cs2 => decide (cs2.connected_for = some k)) +
          (s.threads.set i { t with pc := PC.setFor }).countP
            (fun u => decide (u.pc = PC.setFor)) := by
        rw [List.length_cons, hadd, heqh]
        omega
      exact hgoal
    · intro k2 hk2
      rcases List.mem_cons.mp hk2 with h | h
      · exact h
      · exact hinv.creations_all k2 h
  | setForStep i t c cs ht hpc hc hcs =>
    obtain ⟨c0, cs0, hc0, hcs0, hli0⟩ := hinv.inner_lock i t ht
      (show innerPCs t.pc = true by rw [hpc]; rfl)
    rw [hc] at hc0
    have hcc0 : c = c0 := Option.some_inj.mp hc0
    rw [← hcc0] at hcs0
    rw [hcs] at hcs0
    have hcs0eq : cs = cs0 := Option.some_inj.mp hcs0
    rw [← hcs0eq] at hli0
    obtain ⟨c1, cs1, hc1, hcs1, hne1⟩ := hinv.creating_not_set i t ht (Or.inr hpc)
    rw [hc] at hc1
    have hcc1 : c = c1 := Option.some_inj.mp hc1
    rw [← hcc1] at hcs1
    rw [hcs] at hcs1
    have hcs1eq : cs = cs1 := Option.some_inj.mp hcs1
    rw [← hcs1eq] at hne1
    refine ⟨?_, ?_, ?_, ?_, ?_, ?_, ?_, ?_, ?_, ?_, ?_⟩
    · intro j u hju hou
      rcases set_lookup hju with ⟨hij, hub, _⟩ | ⟨hij, hold⟩
      · subst hij; subst hub
        exact hinv.outer_lock i t ht ⟨hou.1, by rw [hpc]; rfl⟩
      · exact hinv.outer_lock j u hold hou
    · intro j u hju
      rcases set_lookup hju with ⟨hij, hub, _⟩ | ⟨hij, hold⟩
      · subst hub; exact ⟨fun _ hh => PC.noConfusion hh, fun _ => rfl⟩
      · exact hinv.kind_pcs j u hold
    · intro c2 hc2
      have h2 := hinv.field_valid c2 hc2
      show c2 < (s.heap.set c { cs with connected_for := some k }).length
      rw [List.length_set]
      exact h2
    · intro j u c2 hju hc2
      have hgoal : c2 <
          (s.heap.set c { cs with connected_for := some k }).length := by
        rw [List.length_set]
        rcases set_lookup hju with ⟨hij, hub, _⟩ | ⟨hij, hold⟩
        · subst hub; exact hinv.conn_valid i t c2 ht hc2
        · exact hinv.conn_valid j u c2 hold hc2
      exact hgoal
    · intro j u hju hpc2
      rcases set_lookup hju with ⟨hij, hub, _⟩ | ⟨hij, hold⟩
      · subst hub; rcases hpc2 with h | h <;> exact PC.noConfusion h
      · exact hinv.store_field j u hold hpc2
    · exact hinv.installs_eq
    · have heqt := countP_pc_set_ne PC.store s.threads i t
        { t with pc := PC.relInner } ht (by simp [hpc]) (fun hh => PC.noConfusion hh)
      have hgoal : (s.heap.set c { cs with connected_for := some k }).length =
          (if s.connector.isSome then 1 else 0) +
          (s.threads.set i { t with pc := PC.relInner }).countP
            (fun u => decide (u.pc = PC.store)) := by
        rw [List.length_set, heqt]
        exact hinv.heap_len
      exact hgoal
    · intro j u hju hiu
      rcases set_lookup hju with ⟨hij, hub, _⟩ | ⟨hij, hold⟩
      · subst hij; subst hub
        exact ⟨c, { cs with connected_for := some k }, hc,
          set_self_of _ hcs, hli0⟩
      · obtain ⟨cj, csj, hcj, hcsj, hlj⟩ := hinv.inner_lock j u hold hiu
        by_cases hcjc : cj = c
        · subst hcjc
          rw [hcs] at hcsj
          have hcseq : cs = csj := Option.some_inj.mp hcsj
          rw [← hcseq] at hlj
          rw [hli0] at hlj
          exact absurd (Option.some_inj.mp hlj) hij
        · refine ⟨cj, csj, hcj, ?_, hlj⟩
          rw [List.getElem?_set_ne (show c ≠ cj from fun hcc => hcjc hcc.symm)]
          exact hcsj
    · intro j u hju hpc2
      rcases set_lookup hju with ⟨hij, hub, _⟩ | ⟨hij, hold⟩
      · subst hub; rcases hpc2 with h | h <;> exact PC.noConfusion h
      · obtain ⟨cj, csj, hcj, hcsj, hnej⟩ := hinv.creating_not_set j u hold hpc2
        by_cases hcjc : cj = c
        · subst hcjc
          obtain ⟨cj2, csj2, hcj2, hcsj2, hlj2⟩ := hinv.inner_lock j u hold
            (show innerPCs u.pc = true by rcases hpc2 with h | h <;> rw [h] <;> rfl)
          rw [hcj] at hcj2
          have hcc : cj = cj2 := Option.some_inj.mp hcj2
          rw [← hcc] at hcsj2
          rw [hcs] at hcsj2
          have hcseq : cs = csj2 := Option.some_inj.mp hcsj2
          rw [← hcseq] at hlj2
          rw [hli0] at hlj2
          exact absurd (Option.some_inj.mp hlj2) hij
        · refine ⟨cj, csj, hcj, ?_, hnej⟩
          rw [List.getElem?_set_ne (show c ≠ cj from fun hcc => hcjc hcc.symm)]
          exact hcsj
    · have hsub := countP_pc_set_leave PC.setFor s.threads i t
        { t with pc := PC.relInner } ht hpc (fun hh => PC.noConfusion hh)
      have haddh := countP_key_set_add k s.heap c cs { cs with connected_for := some k } hcs hne1 rfl
      have h10 := hinv.creations_eq
      have hgoal : s.creations.length =
          (s.heap.set c { cs with connected_for := some k }).countP
            (fun cs2 => decide (cs2.connected_for = some k)) +
          (s.threads.set i { t with pc := PC.relInner }).countP
            (fun u => decide (u.pc = PC.setFor)) := by
        rw [haddh]
        omega
      exact hgoal
    · exact hinv.creations_all
  | relInnerProp i t c cs ht hpc hc hcs hv =>
    obtain ⟨c0, cs0, hc0, hcs0, hli0⟩ := hinv.inner_lock i t ht
      (show innerPCs t.pc = true by rw [hpc]; rfl)
    rw [hc] at hc0
    have hcc0 : c = c0 := Option.some_inj.mp hc0
    rw [← hcc0] at hcs0
    rw [hcs] at hcs0
    have hcs0eq : cs = cs0 := Option.some_inj.mp hcs0
    rw [← hcs0eq] at hli0
    refine ⟨?_, ?_, ?_, ?_, ?_, ?_, ?_, ?_, ?_, ?_, ?_⟩
    · intro j u hju hou
      rcases set_lookup hju with ⟨hij, hub, _⟩ | ⟨hij, hold⟩
      · subst hij; subst hub
        exact hinv.outer_lock i t ht ⟨hv, by rw [hpc]; rfl⟩
      · exact hinv.outer_lock j u hold hou
    · intro j u hju
      rcases set_lookup hju with ⟨hij, hub, _⟩ | ⟨hij, hold⟩
      · subst hub
        refine ⟨fun _ hh => PC.noConfusion hh, fun hf => ?_⟩
        rw [hv] at hf
        exact Bool.noConfusion hf
      · exact hinv.kind_pcs j u hold
    · intro c2 hc2
      have h2 := hinv.field_valid c2 hc2
      show c2 < (s.heap.set c { cs with lock := none }).length
      rw [List.length_set]
      exact h2
    · intro j u c2 hju hc2
      have hgoal : c2 < (s.heap.set c { cs with lock := none }).length := by
        rw [List.length_set]
        rcases set_lookup hju with ⟨hij, hub, _⟩ | ⟨hij, hold⟩
        · subst hub; exact hinv.conn_valid i t c2 ht hc2
        · exact hinv.conn_valid j u c2 hold hc2
      exact hgoal
    · intro j u hju hpc2
      rcases set_lookup hju with ⟨hij, hub, _⟩ | ⟨hij, hold⟩
      · subst hub; rcases hpc2 with h | h <;> exact PC.noConfusion h
      · exact hinv.store_field j u hold hpc2
    · exact hinv.installs_eq
    · have heqt := countP_pc_set_ne PC.store s.threads i t
        { t with pc := PC.relOuter } ht (by simp [hpc]) (fun hh => PC.noConfusion hh)
      have hgoal : (s.heap.set c { cs with lock := none }).length =
          (if s.connector.isSome then 1 else 0) +
          (s.threads.set i { t with pc := PC.relOuter }).countP
            (fun u => decide (u.pc = PC.store)) := by
        rw [List.length_set, heqt]
        exact hinv.heap_len
      exact hgoal
    · intro j u hju hiu
      rcases set_lookup hju with ⟨hij, hub, _⟩ | ⟨hij, hold⟩
      · subst hub; exact Bool.noConfusion hiu
      · obtain ⟨cj, csj, hcj, hcsj, hlj⟩ := hinv.inner_lock j u hold hiu
        by_cases hcjc : cj = c
        · subst hcjc
          rw [hcs] at hcsj
          have hcseq : cs = csj := Option.some_inj.mp hcsj
          rw [← hcseq] at hlj
          rw [hli0] at hlj
          exact absurd (Option.some_inj.mp hlj) hij
        · refine ⟨cj, csj, hcj, ?_, hlj⟩
          rw [List.getElem?_set_ne (show c ≠ cj from fun hcc => hcjc hcc.symm)]
          exact hcsj
    · intro j u hju hpc2
      rcases set_lookup hju with ⟨hij, hub, _⟩ | ⟨hij, hold⟩
      · subst hub; rcases hpc2 with h | h <;> exact PC.noConfusion h
      · obtain ⟨cj, csj, hcj, hcsj, hnej⟩ := hinv.creating_not_set j u hold hpc2
        by_cases hcjc : cj = c
        · subst hcjc
          obtain ⟨cj2, csj2, hcj2, hcsj2, hlj2⟩ := hinv.inner_lock j u hold
            (show innerPCs u.pc = true by rcases hpc2 with h | h <;> rw [h] <;> rfl)
          rw [hcj] at hcj2
          have hcc : cj = cj2 := Option.some_inj.mp hcj2
          rw [← hcc] at hcsj2
          rw [hcs] at hcsj2
          have hcseq : cs = csj2 := Option.some_inj.mp hcsj2
          rw [← hcseq] at hlj2
          rw [hli0] at hlj2
          exact absurd (Option.some_inj.mp hlj2) hij
        · refine ⟨cj, csj, hcj, ?_, hnej⟩
          rw [List.getElem?_set_ne (show c ≠ cj from fun hcc => hcjc hcc.symm)]
          exact hcsj
    · have heqt := countP_pc_set_ne PC.setFor s.threads i t
        { t with pc := PC.relOuter } ht (by simp [hpc]) (fun hh => PC.noConfusion hh)
      have heqh := countP_key_set_eq k s.heap c cs { cs with lock := none } hcs rfl
      have hgoal : s.creations.length =
          (s.heap.set c { cs with lock := none }).countP
            (fun cs2 => decide (cs2.connected_for = some k)) +
          (s.threads.set i { t with pc := PC.relOuter }).countP
            (fun u => decide (u.pc = PC.setFor)) := by
        rw [heqt, heqh]
        exact hinv.creations_eq
      exact hgoal
    · exact hinv.creations_all
  | relInnerDirect i t c cs ht hpc hc hcs hv =>
    obtain ⟨c0, cs0, hc0, hcs0, hli0⟩ := hinv.inner_lock i t ht
      (show innerPCs t.pc = true by rw [hpc]; rfl)
    rw [hc] at hc0
    have hcc0 : c = c0 := Option.some_inj.mp hc0
    rw [← hcc0] at hcs0
    rw [hcs] at hcs0
    have hcs0eq : cs = cs0 := Option.some_inj.mp hcs0
    rw [← hcs0eq] at hli0
    refine ⟨?_, ?_, ?_, ?_, ?_, ?_, ?_, ?_, ?_, ?_, ?_⟩
    · intro j u hju hou
      rcases set_lookup hju with ⟨hij, hub, _⟩ | ⟨hij, hold⟩
      · subst hub; exact Bool.noConfusion hou.2
      · exact hinv.outer_lock j u hold hou
    · intro j u hju
      rcases set_lookup hju with ⟨hij, hub, _⟩ | ⟨hij, hold⟩
      · subst hub; exact ⟨fun _ hh => PC.noConfusion hh, fun _ => rfl⟩
      · exact hinv.kind_pcs j u hold
    · intro c2 hc2
      have h2 := hinv.field_valid c2 hc2
      show c2 < (s.heap.set c { cs with lock := none }).length
      rw [List.length_set]
      exact h2
    · intro j u c2 hju hc2
      have hgoal : c2 < (s.heap.set c { cs with lock := none }).length := by
        rw [List.length_set]
        rcases set_lookup hju with ⟨hij, hub, _⟩ | ⟨hij, hold⟩
        · subst hub; exact hinv.conn_valid i t c2 ht hc2
        · exact hinv.conn_valid j u c2 hold hc2
      exact hgoal
    · intro j u hju hpc2
      rcases set_lookup hju with ⟨hij, hub, _⟩ | ⟨hij, hold⟩
      · subst hub; rcases hpc2 with h | h <;> exact PC.noConfusion h
      · exact hinv.store_field j u hold hpc2
    · exact hinv.installs_eq
    · have heqt := countP_pc_set_ne PC.store s.threads i t
        { t with pc := PC.done } ht (by simp [hpc]) (fun hh => PC.noConfusion hh)
      have hgoal : (s.heap.set c { cs with lock := none }).length =
          (if s.connector.isSome then 1 else 0) +
          (s.threads.set i { t with pc := PC.done }).countP
            (fun u => decide (u.pc = PC.store)) := by
        rw [List.length_set, heqt]
        exact hinv.heap_len
      exact hgoal
    · intro j u hju hiu
      rcases set_lookup hju with ⟨hij, hub, _⟩ | ⟨hij, hold⟩
      · subst hub; exact Bool.noConfusion hiu
      · obtain ⟨cj, csj, hcj, hcsj, hlj⟩ := hinv.inner_lock j u hold hiu
        by_cases hcjc : cj = c
        · subst hcjc
          rw [hcs] at hcsj
          have hcseq : cs = csj := Option.some_inj.mp hcsj
          rw [← hcseq] at hlj
          rw [hli0] at hlj
          exact absurd (Option.some_inj.mp hlj) hij
        · refine ⟨cj, csj, hcj, ?_, hlj⟩
          rw [List.getElem?_set_ne (show c ≠ cj from fun hcc => hcjc hcc.symm)]
          exact hcsj
    · intro j u hju hpc2
      rcases set_lookup hju with ⟨hij, hub, _⟩ | ⟨hij, hold⟩
      · subst hub; rcases hpc2 with h | h <;> exact PC.noConfusion h
      · obtain ⟨cj, csj, hcj, hcsj, hnej⟩ := hinv.creating_not_set j u hold hpc2
        by_cases hcjc : cj = c
        · subst hcjc
          obtain ⟨cj2, csj2, hcj2, hcsj2, hlj2⟩ := hinv.inner_lock j u hold
            (show innerPCs u.pc = true by rcases hpc2 with h | h <;> rw [h] <;> rfl)
          rw [hcj] at hcj2
          have hcc : cj = cj2 := Option.some_inj.mp hcj2
          rw [← hcc] at hcsj2
          rw [hcs] at hcsj2
          have hcseq : cs = csj2 := Option.some_inj.mp hcsj2
          rw [← hcseq] at hlj2
          rw [hli0] at hlj2
          exact absurd (Option.some_inj.mp hlj2) hij
        · refine ⟨cj, csj, hcj, ?_, hnej⟩
          rw [List.getElem?_set_ne (show c ≠ cj from fun hcc => hcjc hcc.symm)]
          exact hcsj
    · have heqt := countP_pc_set_ne PC.setFor s.threads i t
        { t with pc := PC.done } ht (by simp [hpc]) (fun hh => PC.noConfusion hh)
      have heqh := countP_key_set_eq k s.heap c cs { cs with lock := none } hcs rfl
      have hgoal : s.creations.length =
          (s.heap.set c { cs with lock := none }).countP
            (fun cs2 => decide (cs2.connected_for = some k)) +
          (s.threads.set i { t with pc := PC.done }).countP
            (fun u => decide (u.pc = PC.setFor)) := by
        rw [heqt, heqh]
        exact hinv.creations_eq
      exact hgoal
    · exact hinv.creations_all
  | relOuterStep i t ht hpc =>
    have hvia : t.viaProp = true :=
      viaProp_of_propOnly hinv i t ht (by rw [hpc]; rfl)
    have hlock : s.engineLock = some i :=
      hinv.outer_lock i t ht ⟨hvia, by rw [hpc]; rfl⟩
    refine ⟨?_, ?_, ?_, ?_, ?_, ?_, ?_, ?_, ?_, ?_, ?_⟩
    · intro j u hju hou
      rcases set_lookup hju with ⟨hij, hub, _⟩ | ⟨hij, hold⟩
      · subst hub; exact Bool.noConfusion hou.2
      · have h2 := hinv.outer_lock j u hold hou
        rw [hlock] at h2
        exact absurd (Option.some_inj.mp h2) hij
    · intro j u hju
      rcases set_lookup hju with ⟨hij, hub, _⟩ | ⟨hij, hold⟩
      · subst hub; exact ⟨fun _ hh => PC.noConfusion hh, fun _ => rfl⟩
      · exact hinv.kind_pcs j u hold
    · intro c hc; exact hinv.field_valid c hc
    · intro j u c hju hc
      rcases set_lookup hju with ⟨hij, hub, _⟩ | ⟨hij, hold⟩
      · subst hub; exact hinv.conn_valid i t c ht hc
      · exact hinv.conn_valid j u c hold hc
    · intro j u hju hpc2
      rcases set_lookup hju with ⟨hij, hub, _⟩ | ⟨hij, hold⟩
      · subst hub; rcases hpc2 with h | h <;> exact PC.noConfusion h
      · exact hinv.store_field j u hold hpc2
    · exact hinv.installs_eq
    · have heqt := countP_pc_set_ne PC.store s.threads i t
        { t with pc := PC.done } ht (by simp [hpc]) (fun hh => PC.noConfusion hh)
      have hgoal : s.heap.length = (if s.connector.isSome then 1 else 0) +
          (s.threads.set i { t with pc := PC.done }).countP
            (fun u => decide (u.pc = PC.store)) := by
        rw [heqt]
        exact hinv.heap_len
      exact hgoal
    · intro j u hju hiu
      rcases set_lookup hju with ⟨hij, hub, _⟩ | ⟨hij, hold⟩
      · subst hub; exact Bool.noConfusion hiu
      · exact hinv.inner_lock j u hold hiu
    · intro j u hju hpc2
      rcases set_lookup hju with ⟨hij, hub, _⟩ | ⟨hij, hold⟩
      · subst hub; rcases hpc2 with h | h <;> exact PC.noConfusion h
      · exact hinv.creating_not_set j u hold hpc2
    · have heqt := countP_pc_set_ne PC.setFor s.threads i t
        { t with pc := PC.done } ht (by simp [hpc]) (fun hh => PC.noConfusion hh)
      have hgoal : s.creations.length =
          s.heap.countP (fun cs => decide (cs.connected_for = some k)) +
          (s.threads.set i { t with pc := PC.done }).countP
            (fun u => decide (u.pc = PC.setFor)) := by
        rw [heqt]
        exact hinv.creations_eq
      exact hgoal
    · exact hinv.creations_all
  | qSome i t c ht hpc hc =>
    refine inv_threads_update hinv i t _ ht ?_ ?_ ?_ ?_ ?_ ?_ ?_ ?_
    · intro hou
      exact absurd hpc ((hinv.kind_pcs i t ht).1 hou.1)
    · exact ⟨fun _ hh => PC.noConfusion hh, fun _ => rfl⟩
    · intro c2 hc2
      have hcc : c = c2 := Option.some_inj.mp hc2
      subst hcc
      exact hinv.field_valid c hc
    · intro habs; rcases habs with h | h <;> exact PC.noConfusion h
    · rw [hpc]; rfl
    · rw [hpc]; rfl
    · intro hin; exact Bool.noConfusion hin
    · intro habs; rcases habs with h | h <;> exact PC.noConfusion h
  | qNone i t ht hpc hc =>
    refine inv_threads_update hinv i t _ ht ?_ ?_ ?_ ?_ ?_ ?_ ?_ ?_
    · intro hou; exact Bool.noConfusion hou.2
    · exact ⟨fun _ hh => PC.noConfusion hh, fun _ => rfl⟩
    · intro c2 hc2; exact hinv.conn_valid i t c2 ht hc2
    · intro habs; rcases habs with h | h <;> exact PC.noConfusion h
    · rw [hpc]; rfl
    · rw [hpc]; rfl
    · intro hin; exact Bool.noConfusion hin
    · intro habs; rcases habs with h | h <;> exact PC.noConfusion h

theorem inv_reach {k : EKey} {kinds : List Bool} {s : Sys}
    (h : Reach k kinds s) : Inv k s := by
  induction h with
  | refl => exact inv_init k kinds
  | tail hsteps hstep ih => exact inv_step ih hstep

/-- C8: in every state reachable by interleaving any number of threads
running the `engine` property or calling `get_engine` directly, at most
one write to `self.connector` has happened (and at most one connector
object was ever constructed), and at most one engine has been created —
all creations carry the single `(uri, echo)` key, so at most one engine
is created per key. -/
theorem engine_mutex_safety (k : EKey) (kinds : List Bool) (s : Sys)
    (h : Reach k kinds s) :
    s.installs ≤ 1 ∧ s.heap.length ≤ 1 ∧ s.creations.length ≤ 1 ∧
      ∀ k2 ∈ s.creations, k2 = k := by
  have hinv := inv_reach h
  refine ⟨?_, heap_len_le_one hinv, creations_le_one hinv, hinv.creations_all⟩
  rw [hinv.installs_eq]
  split <;> omega

/-- The key used by the demonstration trace. -/
def demoKey : EKey := ("sqlite://", some false)

/-- The state at the end of the demonstration trace: connector installed
once, one engine created for `demoKey`, all locks released. -/
def demoFinal : Sys :=
  { engineLock := none, connector := some 0,
    heap := [{ lock := none, engine := some 0, connected_for := some demoKey }],
    nextEngine := 1, installs := 1, creations := [demoKey],
    threads := [{ viaProp := true, pc := PC.done, conn := some 0 }] }

/-- A complete run of the `engine` property by a single thread: acquire
the outer lock, find no connector, allocate and install one, enter
`get_engine`, find the key unrecorded, create the engine, record the key
and release both locks.  It ends with one install and one creation. -/
theorem demo_reach : Reach demoKey [true] demoFinal := by
  have h0 : Reach demoKey [true] (initSys [true]) := Relation.ReflTransGen.refl
  have h1 := Relation.ReflTransGen.tail h0
    (Step.acqOuter _ 0 ⟨true, PC.acqOuter, none⟩ rfl rfl rfl)
  have h2 := Relation.ReflTransGen.tail h1
    (Step.readFieldNone _ 0 ⟨true, PC.readField, none⟩ rfl rfl rfl)
  have h3 := Relation.ReflTransGen.tail h2
    (Step.allocStep _ 0 ⟨true, PC.alloc, none⟩ rfl rfl)
  have h4 := Relation.ReflTransGen.tail h3
    (Step.storeStep _ 0 ⟨true, PC.store, some 0⟩ 0 rfl rfl rfl)
  have h5 := Relation.ReflTransGen.tail h4
    (Step.callGetStep _ 0 ⟨true, PC.callGet, some 0⟩ 0 ⟨none, none, none⟩
      rfl rfl rfl rfl rfl)
  have h6 := Relation.ReflTransGen.tail h5
    (Step.cmpNe _ 0 ⟨true, PC.cmpFor, some 0⟩ 0 ⟨some 0, none, none⟩
      rfl rfl rfl rfl (by simp [demoKey]))
  have h7 := Relation.ReflTransGen.tail h6
    (Step.createStep _ 0 ⟨true, PC.createEng, some 0⟩ 0 ⟨some 0, none, none⟩
      rfl rfl rfl rfl)
  have h8 := Relation.ReflTransGen.tail h7
    (Step.setForStep _ 0 ⟨true, PC.setFor, some 0⟩ 0 ⟨some 0, some 0, none⟩
      rfl rfl rfl rfl)
  have h9 := Relation.ReflTransGen.tail h8
    (Step.relInnerProp _ 0 ⟨true, PC.relInner, some 0⟩ 0
      ⟨some 0, some 0, some demoKey⟩ rfl rfl rfl rfl rfl)
  have h10 := Relation.ReflTransGen.tail h9
    (Step.relOuterStep _ 0 ⟨true, PC.relOuter, some 0⟩ rfl rfl)
  simpa [demoFinal, initSys, initThread] using h10

/-- Concrete run of `engine_mutex_safety` at the end of the
demonstration trace, where one connector was installed and one engine
created: the mutual-exclusion bounds hold there. -/
theorem engine_mutex_safety_witness :
    demoFinal.installs ≤ 1 ∧ demoFinal.heap.length ≤ 1 ∧
    demoFinal.creations.length ≤ 1 ∧
    ∀ k2 ∈ demoFinal.creations, k2 = demoKey :=
  engine_mutex_safety demoKey [true] demoFinal demo_reach

end ActiveAlchemy
